import Mathlib

/-!
Verification of the cardutil clearing-file toolkit: a shallow embedding of
the BitArray helper (cardutil/BitArray.py), the 1014-byte blocking layer and
VBS record framing (cardutil/mciipm.py) and the ISO 8583 codec
(cardutil/iso8583.py), together with theorems settling the specification
claims about them.

Bytes are modelled as natural numbers (each < 256 where it matters) and byte
streams as lists; Python dictionaries are association lists in insertion
order; fallible code returns `Option` or `Except`.
-/

namespace Cardutil

/-- Decidable equality for `Except` results, so concrete runs of the
fallible embeddings can be checked by `decide`. -/
instance {ε α : Type} [DecidableEq ε] [DecidableEq α] : DecidableEq (Except ε α) := fun a b =>
  match a, b with
  | .error e, .error f =>
    if h : e = f then .isTrue (by rw [h]) else .isFalse (fun hh => h (by cases hh; rfl))
  | .error _, .ok _ => .isFalse (fun hh => Except.noConfusion hh)
  | .ok _, .error _ => .isFalse (fun hh => Except.noConfusion hh)
  | .ok x, .ok y =>
    if h : x = y then .isTrue (by rw [h]) else .isFalse (fun hh => h (by cases hh; rfl))

/-! ## BitArray (cardutil/BitArray.py)

The module interprets a byte string as a big integer (via
`int(binascii.hexlify(bytes), 16)`) and renders its binary digits.
-/

/-- Little-endian base-256 value of a byte list. -/
def leNat : List Nat → Nat
  | [] => 0
  | b :: bs => b + 256 * leNat bs

/-- Big-endian base-256 value of a byte list: `int(binascii.hexlify(b), 16)`. -/
def beNat (bs : List Nat) : Nat := leNat bs.reverse

/-- Binary digits of `n`, most significant first, width `w`: the
`'\x7bbytes:0\x7bwidth\x7db\x7d'` rendering of `tolist` (exact when `n < 2 ^ w`,
which holds for any byte string interpreted by `beNat`). -/
def natToTopBits (n : Nat) : Nat → List Bool
  | 0 => []
  | w + 1 => n.testBit w :: natToTopBits n w

/-- `BitArray.tolist` for the big-endian case used by the library: one boolean
per bit, most-significant bit of each byte first. -/
def tolist (bs : List Nat) : List Bool := natToTopBits (beNat bs) (8 * bs.length)

/-- `int(s, 2)` on a binary digit string given as booleans. -/
def bitsToNat (bits : List Bool) : Nat :=
  bits.foldl (fun v bit => 2 * v + (if bit then 1 else 0)) 0

/-- The loop of `BitArray.bitstring_to_bytes`, structurally recursive on a
fuel bound (each iteration at least halves `v`, so `v` itself is enough
fuel): emit `v & 0xff` and shift `v >>= 8` while `v` is non-zero, producing
little-endian bytes (the source reverses them at the end).  Note the loop
stops at zero, so leading zero bytes of the value are never emitted. -/
def natBytesLEGo : Nat → Nat → List Nat
  | 0, _ => []
  | fuel + 1, v => if v = 0 then [] else v % 256 :: natBytesLEGo fuel (v / 256)

/-- The loop of `BitArray.bitstring_to_bytes` applied with sufficient fuel. -/
def natBytesLE (v : Nat) : List Nat := natBytesLEGo v v

/-- `BitArray.bitstring_to_bytes`: value of the digit string, then bytes
big-endian (`bytes(b[::-1])`). -/
def bitstring_to_bytes (bits : List Bool) : List Nat := (natBytesLE (bitsToNat bits)).reverse

/-- `BitArray.fromlist` followed by `tobytes`: render the booleans as binary
digits and convert to bytes. -/
def fromlist (bits : List Bool) : List Nat := bitstring_to_bytes bits

/-! ## 1014-byte blocking layer (cardutil/mciipm.py) -/

/-- The read loop of `block_1014`, structurally recursive on a fuel bound
(every iteration consumes at least one input byte, so the input length is
enough fuel): take 1012-byte chunks, pad the final short chunk with `0x40`,
and append two `0x40` bytes to every chunk. -/
def block1014Go : Nat → List Nat → List Nat
  | 0, _ => []
  | fuel + 1, input_data =>
    if input_data = [] then []
    else
      let record := input_data.take 1012
      let record := if record.length ≠ 1012
        then record ++ List.replicate (1012 - record.length) 0x40 else record
      record ++ [0x40, 0x40] ++ block1014Go fuel (input_data.drop 1012)

/-- Whole-file blocking pass `block_1014`, applied with sufficient fuel. -/
def block_1014 (input_data : List Nat) : List Nat := block1014Go input_data.length input_data

/-- The read loop of `unblock_1014`, structurally recursive on a fuel bound
(every iteration consumes at least one input byte): read 1014-byte records,
demand exactly 1014 bytes ending in two `0x40` bytes, keep the first 1012. -/
def unblock1014Go : Nat → List Nat → Except String (List Nat)
  | 0, _ => .ok []
  | fuel + 1, input_data =>
    if input_data = [] then .ok []
    else
      let record := input_data.take 1014
      if record.length ≠ 1014 then .error "Invalid record size for 1014 blocked"
      else if record.drop 1012 ≠ [0x40, 0x40] then .error "Invalid line ending for 1014 blocked"
      else (unblock1014Go fuel (input_data.drop 1014)).map (fun rest => record.take 1012 ++ rest)

/-- Whole-file unblocking pass `unblock_1014`, applied with sufficient fuel. -/
def unblock_1014 (input_data : List Nat) : Except String (List Nat) :=
  unblock1014Go input_data.length input_data

/-- State of the streaming `Block1014` writer: bytes written to the wrapped
file object, and `remaining_chars`, the room left in the current 1012-byte
window. -/
structure Block1014 where
  out : List Nat
  remaining_chars : Nat
deriving DecidableEq

/-- The `while len(bytes_to_write) > 1012` loop of `Block1014.write`, followed
by the final write of the leftover bytes. -/
def Block1014.writeLoop (out : List Nat) (bytes_to_write : List Nat) : Block1014 :=
  if 1012 < bytes_to_write.length then
    Block1014.writeLoop (out ++ bytes_to_write.take 1012 ++ [0x40, 0x40]) (bytes_to_write.drop 1012)
  else ⟨out ++ bytes_to_write, 1012 - bytes_to_write.length⟩
termination_by bytes_to_write.length
decreasing_by simp only [List.length_drop]; omega

/-- `Block1014.write`: forward the bytes, inserting two `0x40` pad bytes after
every completed 1012-byte window. -/
def Block1014.write (st : Block1014) (bytes_to_write : List Nat) : Block1014 :=
  if bytes_to_write.length < st.remaining_chars then
    ⟨st.out ++ bytes_to_write, st.remaining_chars - bytes_to_write.length⟩
  else
    Block1014.writeLoop (st.out ++ bytes_to_write.take st.remaining_chars ++ [0x40, 0x40])
      (bytes_to_write.drop st.remaining_chars)

/-- `Block1014.finalise` (called by `close` and `seek`): fill the current
window with `0x40` and add the two block pad bytes. -/
def Block1014.finalise (st : Block1014) : Block1014 :=
  ⟨st.out ++ List.replicate (st.remaining_chars + 2) 0x40, 1012⟩

/-- A fresh `Block1014` wrapper: nothing written, 1012 bytes of room. -/
def Block1014.init : Block1014 := ⟨[], 1012⟩

/-- Output produced by writing a sequence of byte strings through `Block1014`
and then closing it (close calls `finalise`). -/
def Block1014.run (writes : List (List Nat)) : List Nat :=
  ((writes.foldl Block1014.write Block1014.init).finalise).out

/-- The `while read_all or len(self.buffer) <= bytes_to_read` loop of
`Unblock1014.read`: fetch 1014-byte blocks, keep the first 1012 bytes of
each, stop at end of file.  Returns the grown buffer and leftover source. -/
def Unblock1014.readLoop (buffer source : List Nat) (bytes_to_read : Nat) (read_all : Bool) :
    List Nat × List Nat :=
  if read_all ∨ buffer.length ≤ bytes_to_read then
    if source = [] then (buffer, source)
    else Unblock1014.readLoop (buffer ++ (source.take 1014).take 1012) (source.drop 1014)
      bytes_to_read read_all
  else (buffer, source)
termination_by source.length
decreasing_by
  simp only [List.length_drop]
  have : source.length ≠ 0 := by
    simpa [List.length_eq_zero] using (by assumption : ¬ source = [])
  omega

/-- `Unblock1014.read`: run the fill loop (`read_all` is true exactly when the
default `bytes_to_read = 0` argument is used, via `True if not bytes_to_read
else False`), then slice the requested bytes off the buffer.  Returns the
bytes handed to the caller together with the new buffer and leftover
source. -/
def Unblock1014.read (buffer source : List Nat) (bytes_to_read : Nat := 0) :
    List Nat × List Nat × List Nat :=
  let p := Unblock1014.readLoop buffer source bytes_to_read (bytes_to_read == 0)
  (p.1.take bytes_to_read, p.1.drop bytes_to_read, p.2)

/-! ## VBS record framing (cardutil/mciipm.py) -/

/-- `struct.pack(">i", n)` for `0 ≤ n < 2^31`: big-endian 4-byte rendering. -/
def pack32 (n : Nat) : List Nat :=
  [n / 2 ^ 24 % 256, n / 2 ^ 16 % 256, n / 2 ^ 8 % 256, n % 256]

/-- `struct.unpack(">i", bs)[0]`: big-endian signed 32-bit decode of 4 bytes. -/
def unpackInt32 (bs : List Nat) : Int :=
  let u := beNat bs
  if u < 2 ^ 31 then (u : Int) else (u : Int) - 2 ^ 32

/-- The data error raised by the VBS layer (`MciIpmDataError`): it carries the
1-based record number and optional binary context data. -/
structure MciIpmDataError where
  record_number : Nat
  binary_context_data : Option (List Nat)
deriving DecidableEq, Repr

/-- `vbs_list_to_bytes`: each record prefixed with its 4-byte big-endian
length, terminated by a zero-length sentinel (written by `VbsWriter.close`). -/
def vbs_list_to_bytes (byte_list : List (List Nat)) : List Nat :=
  (byte_list.map (fun r => pack32 r.length ++ r)).flatten ++ pack32 0

/-- The iteration of `VbsReader.__next__`, reading all records of a byte
string, structurally recursive on a fuel bound (every produced record
consumes at least 5 bytes, so the data length is enough fuel): fewer than 4
length bytes ends the stream; a negative or > 3000 length is a data error
carrying the current record number and the previously completed raw record;
a zero length ends the stream; a short record read is a data error carrying
the attempted raw record. -/
def vbsGo : Nat → Nat → Option (List Nat) → List Nat → Except MciIpmDataError (List (List Nat))
  | 0, _, _, _ => .ok []
  | fuel + 1, record_number, last_record, data =>
    let record_length_raw := data.take 4
    if record_length_raw.length ≠ 4 then .ok []
    else
      let record_length := unpackInt32 record_length_raw
      if record_length < 0 ∨ 3000 < record_length then
        .error ⟨record_number, last_record⟩
      else if record_length = 0 then .ok []
      else
        let n := record_length.toNat
        let record := (data.drop 4).take n
        if record.length ≠ n then .error ⟨record_number, some (record_length_raw ++ record)⟩
        else (vbsGo fuel (record_number + 1) (some (record_length_raw ++ record))
          (data.drop (4 + n))).map (record :: ·)

/-- The iteration of `VbsReader.__next__` applied with sufficient fuel. -/
def vbsReadRecords (record_number : Nat) (last_record : Option (List Nat)) (data : List Nat) :
    Except MciIpmDataError (List (List Nat)) :=
  vbsGo data.length record_number last_record data

/-- `vbs_bytes_to_list`: read all records through a fresh `VbsReader`
(record number 1, no last record yet). -/
def vbs_bytes_to_list (vbs_bytes : List Nat) : Except MciIpmDataError (List (List Nat)) :=
  vbsReadRecords 1 none vbs_bytes

/-! ## ISO 8583 message codec (cardutil/iso8583.py)

The message dictionary is an association list in insertion order, mirroring a
Python dict; values carry the Python type of the entry.  The embedding covers
the string, int and bytes values the claims exercise; `decimal` and
`datetime` coercion and the DE43 regular-expression split are outside the
modelled fragment (no claim touches them) and are mapped to failures. -/

/-- A Python value held in a message dictionary. -/
inductive PyVal where
  | str (s : String)
  | int (n : Nat)
  | bytes (bs : List Nat)
deriving DecidableEq, Repr

/-- A message dictionary: keys to values, in insertion order. -/
abbrev Dict := List (String × PyVal)

/-- Python `d.get(k)`. -/
def dictGet (d : Dict) (k : String) : Option PyVal :=
  (d.find? (fun kv => kv.1 = k)).map (·.2)

/-- Python `d[k] = v`: replace in place when the key exists, else append. -/
def dictSet (d : Dict) (k : String) (v : PyVal) : Dict :=
  if (d.find? (fun kv => kv.1 = k)).isSome then
    d.map (fun kv => if kv.1 = k then (k, v) else kv)
  else d ++ [(k, v)]

/-- Python `d.update(other)`: assign the entries of `other` in order. -/
def dictUpdate (d other : Dict) : Dict :=
  other.foldl (fun acc kv => dictSet acc kv.1 kv.2) d

/-- Python truthiness of a value (`if message.get('DE...')`). -/
def PyVal.truthy : PyVal → Bool
  | .str s => s ≠ ""
  | .int n => n ≠ 0
  | .bytes bs => bs ≠ []

/-- `field_type` of a bit configuration entry. -/
inductive FieldType where
  | FIXED | LLVAR | LLLVAR
deriving DecidableEq

/-- `field_processor` of a bit configuration entry (`PAN-PREFIX` written
`PAN_PRE`). -/
inductive FieldProcessor where
  | PAN | PAN_PRE | PDS | ICC | DE43
deriving DecidableEq

/-- `field_python_type` of a bit configuration entry. -/
inductive FieldPyType where
  | int | decimal | datetime
deriving DecidableEq

/-- One entry of the `bit_config` dictionary (cardutil/config.py).
`field_date_format` is carried as data only. -/
structure BitCfg where
  field_name : String
  field_type : FieldType
  field_length : Nat
  field_processor : Option FieldProcessor := none
  field_processor_config : Option String := none
  field_python_type : Option FieldPyType := none
  field_date_format : Option String := none
deriving DecidableEq

/-- The default `config['bit_config']` table of cardutil/config.py, keyed by
bit number ("long" is recorded as `int`; both select the same conversion). -/
def bit_config : List (Nat × BitCfg) := [
  (1, { field_name := "Bitmap secondary", field_type := .FIXED, field_length := 8 }),
  (2, { field_name := "PAN", field_type := .LLVAR, field_length := 0 }),
  (3, { field_name := "Processing code", field_type := .FIXED, field_length := 6 }),
  (4, { field_name := "Amount transaction", field_type := .FIXED, field_length := 12,
        field_python_type := some .int }),
  (5, { field_name := "Amount, Reconciliation", field_type := .FIXED, field_length := 12,
        field_python_type := some .int }),
  (6, { field_name := "Amount, Cardholder billing", field_type := .FIXED, field_length := 12,
        field_python_type := some .int }),
  (9, { field_name := "Conversion rate, Reconciliation", field_type := .FIXED, field_length := 8,
        field_python_type := some .int }),
  (10, { field_name := "Conversion rate, Cardholder billing", field_type := .FIXED,
         field_length := 8, field_python_type := some .int }),
  (12, { field_name := "Date/Time local transaction", field_type := .FIXED, field_length := 12,
         field_python_type := some .datetime, field_date_format := some "%y%m%d%H%M%S" }),
  (14, { field_name := "Expiration date", field_type := .FIXED, field_length := 4 }),
  (22, { field_name := "Point of service data code", field_type := .FIXED, field_length := 12 }),
  (23, { field_name := "Card sequence number", field_type := .FIXED, field_length := 3 }),
  (24, { field_name := "Function code", field_type := .FIXED, field_length := 3 }),
  (25, { field_name := "Message reason code", field_type := .FIXED, field_length := 4 }),
  (26, { field_name := "Card acceptor business code", field_type := .FIXED, field_length := 4,
         field_python_type := some .int }),
  (30, { field_name := "Amounts, original", field_type := .FIXED, field_length := 24 }),
  (31, { field_name := "Acquirer reference data", field_type := .LLVAR, field_length := 23 }),
  (32, { field_name := "Acquiring institution ID code", field_type := .LLVAR, field_length := 0 }),
  (33, { field_name := "Forwarding institution ID code", field_type := .LLVAR, field_length := 0 }),
  (37, { field_name := "Retrieval reference number", field_type := .FIXED, field_length := 12 }),
  (38, { field_name := "Approval code", field_type := .FIXED, field_length := 6 }),
  (40, { field_name := "Service code", field_type := .FIXED, field_length := 3 }),
  (41, { field_name := "Card acceptor terminal ID", field_type := .FIXED, field_length := 8 }),
  (42, { field_name := "Card acceptor Id", field_type := .FIXED, field_length := 15 }),
  (43, { field_name := "Card acceptor name/location", field_type := .LLVAR, field_length := 0,
         field_processor := some .DE43,
         field_processor_config := some "merchant location regex (carried as data)" }),
  (48, { field_name := "Additional data", field_type := .LLLVAR, field_length := 0,
         field_processor := some .PDS }),
  (49, { field_name := "Currency code, Transaction", field_type := .FIXED, field_length := 3 }),
  (50, { field_name := "Currency code, Reconciliation", field_type := .FIXED, field_length := 3 }),
  (51, { field_name := "Currency code, Cardholder billing", field_type := .FIXED,
         field_length := 3 }),
  (54, { field_name := "Amounts, additional", field_type := .LLLVAR, field_length := 0 }),
  (55, { field_name := "ICC system related data", field_type := .LLLVAR, field_length := 255,
         field_processor := some .ICC }),
  (62, { field_name := "Additional data 2", field_type := .LLLVAR, field_length := 0,
         field_processor := some .PDS }),
  (63, { field_name := "Transaction lifecycle Id", field_type := .LLLVAR, field_length := 16 }),
  (71, { field_name := "Message number", field_type := .FIXED, field_length := 8,
         field_python_type := some .int }),
  (72, { field_name := "Data record", field_type := .LLLVAR, field_length := 0 }),
  (73, { field_name := "Date, Action", field_type := .FIXED, field_length := 6 }),
  (93, { field_name := "Transaction destination institution ID", field_type := .LLVAR,
         field_length := 0 }),
  (94, { field_name := "Transaction originator institution ID", field_type := .LLVAR,
         field_length := 0 }),
  (95, { field_name := "Card issuer reference data", field_type := .LLVAR, field_length := 10 }),
  (100, { field_name := "Receiving institution ID", field_type := .LLVAR, field_length := 11 }),
  (111, { field_name := "Amount, currency conversion assignment", field_type := .LLLVAR,
          field_length := 0 }),
  (123, { field_name := "Additional data 3", field_type := .LLLVAR, field_length := 0,
          field_processor := some .PDS }),
  (124, { field_name := "Additional data 4", field_type := .LLLVAR, field_length := 0,
          field_processor := some .PDS }),
  (125, { field_name := "Additional data 5", field_type := .LLLVAR, field_length := 0,
          field_processor := some .PDS }),
  (127, { field_name := "Network data", field_type := .LLLVAR, field_length := 0 })]

/-- `bit_config[str(bit)]` lookup. -/
def bitConfigGet (cfg : List (Nat × BitCfg)) (bit : Nat) : Option BitCfg :=
  (cfg.find? (fun e => e.1 = bit)).map (·.2)

/-- Encode a string under the default `latin_1` codec: code point = byte;
code points above 255 cannot be encoded. -/
def latin1Encode (s : String) : Option (List Nat) :=
  if s.data.all (fun c => c.toNat < 256) then some (s.data.map Char.toNat) else none

/-- Decode bytes under the default `latin_1` codec (total on true bytes). -/
def latin1Decode (bs : List Nat) : Option String :=
  if bs.all (· < 256) then some ⟨bs.map Char.ofNat⟩ else none

/-- `format(n, '0<w>d')`: decimal rendering zero-padded on the left to `w`.
Never truncates. -/
def padZeros (w : Nat) (s : String) : String :=
  if s.length < w then ⟨List.replicate (w - s.length) '0'⟩ ++ s else s

/-- `format(s, '<<w>')`: left-justified, space-padded on the right to `w`. -/
def padRight (w : Nat) (s : String) : String :=
  if s.length < w then s ++ ⟨List.replicate (w - s.length) ' '⟩ else s

/-- Python `int(s)` on the decimal digit strings the codec feeds it: `none`
(a `ValueError`) unless the string is one or more ASCII digits. -/
def pyInt? (s : String) : Option Nat :=
  if s.data ≠ [] ∧ s.data.all (fun c => c.isDigit) then
    some (s.data.foldl (fun n c => 10 * n + (c.toNat - 48)) 0)
  else none

/-- `_get_field_length`: size of the decimal length prefix for the field
type. -/
def _get_field_length (cfg : BitCfg) : Nat :=
  match cfg.field_type with
  | .LLVAR => 2
  | .LLLVAR => 3
  | .FIXED => 0

/-- `card.mask`: first 6 characters, `*` filler, last 4 characters. -/
def mask (card_number : String) : String :=
  ⟨card_number.data.take 6⟩ ++ ⟨List.replicate (card_number.length - 10) '*'⟩
    ++ ⟨card_number.data.drop (card_number.length - 4)⟩

/-- `_pan_prefix`: first 9 characters of the PAN. -/
def panPrefix9 (field_data : String) : String := ⟨field_data.data.take 9⟩

/-- `_pytype_to_string`: coerce a native value to the string written to the
message.  The int path is `format(int(x), '0<field_length>d')`; `decimal` and
`datetime` formatting are outside the modelled fragment. -/
def _pytype_to_string (field_data : PyVal) (cfg : BitCfg) : Option PyVal :=
  match cfg.field_python_type with
  | some .int =>
    match field_data with
    | .str s => (pyInt? s).map (fun n => .str (padZeros cfg.field_length (toString n)))
    | .int n => some (.str (padZeros cfg.field_length (toString n)))
    | .bytes _ => none
  | some .decimal => none
  | some .datetime => none
  | none => some field_data

/-- `_string_to_pytype`: coerce the decoded string to the configured native
type (`int(field_data)` modelled for decimal digit strings; `decimal` and
`datetime` parsing are outside the modelled fragment). -/
def _string_to_pytype (field_data : String) (cfg : BitCfg) : Option PyVal :=
  match cfg.field_python_type with
  | some .int => (pyInt? field_data).map .int
  | some .decimal => none
  | some .datetime => none
  | none => some (.str field_data)

/-- `binascii.b2a_hex` of one byte: two lowercase hex digits. -/
def hexByte (n : Nat) : String := ⟨[(Nat.digitChar (n / 16 % 16)), (Nat.digitChar (n % 16))]⟩

/-- `binascii.b2a_hex` of a byte string, decoded to str. -/
def b2a_hex (bs : List Nat) : String := String.join (bs.map hexByte)

/-- Uppercase an ASCII hex string (`.upper()` on hex output). -/
def upperHex (s : String) : String := ⟨s.data.map Char.toUpper⟩

/-- `_pds_to_dict`: split an already decoded PDS field string into
`PDS<tag>` entries: tag (4 chars), length (3 decimal digits), value.  A
non-numeric length is a `ValueError`. -/
def _pds_to_dict (field_data : List Char) : Option Dict :=
  if field_data = [] then some []
  else do
    let pds_field_tag : String := ⟨field_data.take 4⟩
    let pds_field_length ← pyInt? ⟨(field_data.drop 4).take 3⟩
    let pds_field_data : String := ⟨(field_data.drop 7).take pds_field_length⟩
    let rest ← _pds_to_dict (field_data.drop (7 + pds_field_length))
    pure (("PDS" ++ pds_field_tag, .str pds_field_data) :: rest)
termination_by field_data.length
decreasing_by
  simp only [List.length_drop]
  have : field_data.length ≠ 0 := by
    simpa [List.length_eq_zero] using (by assumption : ¬ field_data = [])
  omega

/-- Error policy of the ICC TLV sub-parser. -/
inductive IccMode where
  | ERROR | WARN
deriving DecidableEq

/-- Modelled from the spec: selection of the ICC on-error policy from the
field's `field_processor_config` key=value string (`on_error=ERROR` or
`on_error=WARN`); the WARN fallback follows the spec's note that WARN is
the backward-compatible default. -/
def iccOnError (field_processor_config : Option String) : IccMode :=
  if field_processor_config = some "on_error=ERROR" then .ERROR else .WARN

mutual

/-- Modelled from the spec: the TLV loop of `_icc_to_dict` with configurable
error handling, which is absent from src (the tests call `_icc_to_dict` with
an `on_error` argument the src function does not take).  Structurally
recursive on a fuel bound; the position strictly advances each step, so the
data length plus one is enough fuel, and out of fuel the collected entries
are returned (unreachable with sufficient fuel).  Read a tag (two bytes when
the first is 0x9F or 0x5F, stop on a 0x00 one-byte tag), one length byte,
then the value bytes; store `TAG<hex>` with uppercase hex tag and lowercase
hex value.  When the data ends mid-tag, or before the length byte, or the
length runs past the buffer: under ERROR surface a data error, under WARN
stop and return the entries collected so far. -/
def iccLoop (fuel : Nat) (mode : IccMode) (field_data : List Nat) (p : Nat) (acc : Dict) :
    Except String Dict :=
  match fuel with
  | 0 => .ok acc
  | fuel + 1 =>
    if hp : p < field_data.length then
      let t1 := field_data.get ⟨p, hp⟩
      if t1 = 0x9f ∨ t1 = 0x5f then
        if hp2 : p + 1 < field_data.length then
          iccTag fuel mode field_data (p + 2) acc [t1, field_data.get ⟨p + 1, hp2⟩]
        else match mode with  -- data ends mid two-byte tag
          | .ERROR => .error "Unable to parse ICC tag"
          | .WARN => .ok acc
      else if t1 = 0x00 then .ok acc  -- low values tag ends the field
      else iccTag fuel mode field_data (p + 1) acc [t1]
    else .ok acc

/-- Modelled from the spec: after the tag of `_icc_to_dict` is read at
position `p`, read the length byte and the value. -/
def iccTag (fuel : Nat) (mode : IccMode) (field_data : List Nat) (p : Nat) (acc : Dict)
    (field_tag : List Nat) : Except String Dict :=
  match fuel with
  | 0 => .ok acc
  | fuel + 1 =>
    if hp : p < field_data.length then
      let field_length := field_data.get ⟨p, hp⟩
      let de_field_data := (field_data.drop (p + 1)).take field_length
      if de_field_data.length < field_length then
        match mode with  -- length runs past the end of the buffer
        | .ERROR => .error "Unable to parse ICC value"
        | .WARN => .ok acc
      else
        iccLoop fuel mode field_data (p + 1 + field_length)
          (acc ++ [("TAG" ++ upperHex (b2a_hex field_tag), .str (b2a_hex de_field_data))])
    else match mode with  -- data ends before the length byte
      | .ERROR => .error "Unable to parse ICC length"
      | .WARN => .ok acc

end

/-- Modelled from the spec: `_icc_to_dict` — emit `ICC_DATA` as the full hex
of the field, then collect the TLV tags under the configured error policy. -/
def _icc_to_dict (field_data : List Nat) (field_processor_config : Option String := none) :
    Except String Dict :=
  iccLoop (2 * field_data.length + 2) (iccOnError field_processor_config) field_data 0
    [("ICC_DATA", .str (b2a_hex field_data))]

/-- Lift an optional value into `Except`, tagging the failure message. -/
def optE (o : Option α) (msg : String) : Except String α :=
  match o with
  | some a => .ok a
  | none => .error msg

/-- Python `s[:n]` on a string. -/
def takeStr (n : Nat) (s : String) : String := ⟨s.data.take n⟩

/-- `_iso8583_to_field`: decode one data element from the head of
`message_data`, returning the dictionary entries it contributes and the
number of bytes consumed.  The ICC branch hands the field's
`field_processor_config` to the spec-modelled `_icc_to_dict`. -/
def _iso8583_to_field (bit : Nat) (cfg : BitCfg) (message_data : List Nat) :
    Except String (Dict × Nat) := do
  let length_size := _get_field_length cfg
  let field_length ←
    if 0 < length_size then do
      let s ← optE (latin1Decode (message_data.take length_size))
        ("Unable to decode DE" ++ toString bit ++ " field length")
      optE (pyInt? s) ("Invalid field length DE" ++ toString bit)
    else pure cfg.field_length
  let field_data_raw := (message_data.drop length_size).take field_length
  if cfg.field_processor = some .ICC then do
    let sub ← _icc_to_dict field_data_raw cfg.field_processor_config
    pure (("DE" ++ toString bit, .bytes field_data_raw) :: sub, field_length + length_size)
  else do
    let field_data ← optE (latin1Decode field_data_raw)
      ("Unable to decode DE" ++ toString bit ++ " field value")
    let field_data := if cfg.field_processor = some .PAN then mask field_data else field_data
    let field_data := if cfg.field_processor = some .PAN_PRE then panPrefix9 field_data
      else field_data
    let field_value ← optE (_string_to_pytype field_data cfg)
      ("Unable to convert DE" ++ toString bit ++ " field to python type")
    let sub : Dict ←
      match cfg.field_processor with
      | some .PDS => optE (_pds_to_dict field_data.data) "Invalid PDS field"
      | some .DE43 => .error "DE43 regex split not modelled"
      | _ => pure []
    pure (("DE" ++ toString bit, field_value) :: sub, field_length + length_size)

/-- `_iso8583_to_dict`: split the raw message into MTI (4 bytes), binary
bitmap (16 bytes) and data; decode each data element flagged in the bitmap in
ascending bit order (the source's `bitmap_list` keeps the raw bitmap at index
0, so its index `bit` is index `bit - 1` of the boolean list); demand that
the data is consumed exactly. -/
def _iso8583_to_dict (message : List Nat) (cfg : List (Nat × BitCfg)) : Except String Dict :=
  if message.length < 4 + 16 then .error "Failed unpacking bitmap values"
  else do
    let binary_bitmap := (message.drop 4).take 16
    let message_data := message.drop 20
    let mti ← optE (latin1Decode (message.take 4)) "Failed decoding MTI field"
    let bitmap_list := tolist binary_bitmap
    let st ← (List.range' 2 126).foldlM (fun (st : Dict × Nat) bit => do
        if bitmap_list.getD (bit - 1) false then do
          let c ← optE (bitConfigGet cfg bit) ("No bit config for DE" ++ toString bit)
          let r ← _iso8583_to_field bit c (message_data.drop st.2)
          pure (dictUpdate st.1 r.1, st.2 + r.2)
        else pure st) (([("MTI", .str mti)] : Dict), 0)
    if st.2 ≠ message_data.length then .error "Message data not correct length"
    else pure st.1

/-- `_field_to_iso8583`: encode one field value.  Variable-length fields take
their length from the value; the value is sliced to the field length and,
for strings, left-justified space-padded and text encoded (an int value
reaching Python's `len`/slice raises, hence `none`). -/
def _field_to_iso8583 (cfg : BitCfg) (field_value : PyVal) : Option (List Nat) := do
  let fv ← _pytype_to_string field_value cfg
  let length_size := _get_field_length cfg
  let field_length ←
    if 0 < length_size then
      match fv with
      | .str s => some s.length
      | .bytes b => some b.length
      | .int _ => none
    else some cfg.field_length
  let pre ← if 0 < length_size then latin1Encode (padZeros length_size (toString field_length))
    else some []
  let body ←
    match fv with
    | .bytes b => some (b.take field_length)
    | .str s => latin1Encode (padRight field_length (takeStr field_length s))
    | .int _ => none
  pure (pre ++ body)

/-- Python string comparison: code-point lexicographic order on the
characters. -/
def strLt : List Char → List Char → Bool
  | [], [] => false
  | [], _ :: _ => true
  | _ :: _, [] => false
  | a :: as, b :: bs => if a < b then true else if b < a then false else strLt as bs

/-- Ascending insertion for the string sort used on PDS keys. -/
def insertLe (x : String) : List String → List String
  | [] => [x]
  | y :: ys => if strLt y.data x.data then y :: insertLe x ys else x :: y :: ys

/-- Python `sorted` on strings (insertion sort; the keys are distinct). -/
def sortStr (l : List String) : List String := l.foldr insertLe []

/-- Python `key.startswith('PDS')`. -/
def startsPDS (s : String) : Bool :=
  match s.data with
  | 'P' :: 'D' :: 'S' :: _ => true
  | _ => false

/-- Python `key[3:]`. -/
def dropStr (n : Nat) (s : String) : String := ⟨s.data.drop n⟩

/-- The fragment accumulation loop of `_pds_to_de`: append each
`<tag:04d><len:03d><value>` entry to the current output, flushing the
current output to the fragment list whenever the combined length would
exceed 999. -/
def pdsChunks (adds : List String) (output : String) (outputs : List String) : List String :=
  match adds with
  | [] => if output ≠ "" then outputs ++ [output] else outputs
  | add_output :: rest =>
    if 999 < (output ++ add_output).length then pdsChunks rest add_output (outputs ++ [output])
    else pdsChunks rest (output ++ add_output) outputs

/-- `_pds_to_de`: collect the `PDS...` keys of the dictionary in sorted
order, compose `<tag:04d><len:03d><value>` for each, and pack them into
fragments of at most 999 characters via `pdsChunks` (a non-numeric tag is a
`ValueError`; PDS values are strings). -/
def _pds_to_de (dict_values : Dict) : Option (List String) := do
  let keys := sortStr ((dict_values.map (·.1)).filter (fun k => startsPDS k))
  let adds ← keys.mapM (fun key => do
    let tag ← pyInt? (dropStr 3 key)
    let v ← dictGet dict_values key
    let s ← match v with
      | .str s => some s
      | _ => none
    pure (padZeros 4 (toString tag) ++ padZeros 3 (toString s.length) ++ s))
  pure (pdsChunks adds "" [])

/-- Descending insertion for the reverse sort of PDS-typed bit numbers. -/
def insertGe (x : Nat) : List Nat → List Nat
  | [] => [x]
  | y :: ys => if y ≤ x then x :: y :: ys else y :: insertGe x ys

/-- Python `sorted(..., reverse=True)` on bit numbers. -/
def sortNatDesc (l : List Nat) : List Nat := l.foldr insertGe []

/-- The `de_pds_fields` list of `_dict_to_iso8583`: bit numbers whose config
has the PDS processor, sorted descending (the encoder pops from the end). -/
def pdsSlotsDesc (cfg : List (Nat × BitCfg)) : List Nat :=
  sortNatDesc ((cfg.filter (fun e => e.2.field_processor = some .PDS)).map (·.1))

/-- The PDS injection loop of `_dict_to_iso8583`: assign each fragment to the
slot popped off the end of the descending slot list by writing a synthetic
`DE<n>` entry into the message dictionary (pop from an empty list raises
`IndexError`). -/
def popAssign (message : Dict) (frags : List String) (de_pds_fields : List Nat) : Option Dict :=
  match frags with
  | [] => some message
  | de_field_value :: rest =>
    match de_pds_fields.getLast? with
    | none => none
    | some de_field_key =>
      popAssign (dictSet message ("DE" ++ toString de_field_key) (.str de_field_value)) rest
        de_pds_fields.dropLast

/-- The MTI byte string of `_dict_to_iso8583`:
`message['MTI'].encode(encoding) if message.get('MTI') else b''` — empty
when the key is missing or falsy, an encode (failing on non-string values)
otherwise. -/
def encodeMTI (message : Dict) : Option (List Nat) :=
  match dictGet message "MTI" with
  | some v =>
    if v.truthy then
      match v with
      | .str s => latin1Encode s
      | _ => none
    else some []
  | none => some []

/-- `_dict_to_iso8583`: inject the PDS fragments as synthetic `DE<n>` entries
(mutating the caller's dictionary), then encode every present bit in
ascending order (a present value is one that is truthy, or the int 0), set
its bitmap flag (bit 1 is always set), and emit MTI + binary bitmap + data.
Returns the bytes together with the dictionary as the caller sees it after
the call. -/
def _dict_to_iso8583 (message : Dict) (cfg : List (Nat × BitCfg)) :
    Option (List Nat × Dict) := do
  let frags ← _pds_to_de message
  let message ← popAssign message frags (pdsSlotsDesc cfg)
  let st ← (List.range' 2 126).foldlM (fun (st : List Nat × List Bool) bit => do
      match dictGet message ("DE" ++ toString bit) with
      | some v =>
        if v.truthy || v == .int 0 then do
          let c ← bitConfigGet cfg bit
          let fb ← _field_to_iso8583 c v
          pure (st.1 ++ fb, st.2.set (bit - 1) true)
        else pure st
      | none => pure st) (([], (List.replicate 128 false).set 0 true) : List Nat × List Bool)
  let binary_bitmap := fromlist st.2
  let mti ← encodeMTI message
  pure (mti ++ binary_bitmap ++ st.1, message)

/-! ## Lemmas: BitArray -/

/-- A byte list with its trailing zero bytes removed: what the
`bitstring_to_bytes` loop leaves of the little-endian byte string. -/
def trimZ : List Nat → List Nat
  | [] => []
  | x :: xs =>
    match trimZ xs with
    | [] => if x = 0 then [] else [x]
    | ys => x :: ys

theorem natToTopBits_length (n w : Nat) : (natToTopBits n w).length = w := by
  induction w with
  | zero => rfl
  | succ w ih => simp [natToTopBits, ih]

theorem leNat_lt_pow (l : List Nat) (h : ∀ x ∈ l, x < 256) : leNat l < 256 ^ l.length := by
  induction l with
  | nil => simp [leNat]
  | cons x xs ih =>
    have hx : x < 256 := h x (List.mem_cons_self x xs)
    have hxs : leNat xs < 256 ^ xs.length := ih (fun y hy => h y (List.mem_cons_of_mem x hy))
    simp only [leNat, List.length_cons, pow_succ]
    calc x + 256 * leNat xs < 256 + 256 * leNat xs := by omega
    _ = 256 * (leNat xs + 1) := by ring
    _ ≤ 256 * 256 ^ xs.length := by
        exact Nat.mul_le_mul_left 256 (by omega)
    _ = 256 ^ xs.length * 256 := by ring

theorem bitsToNat_natToTopBits_aux (n : Nat) :
    ∀ w acc, (natToTopBits n w).foldl (fun v bit => 2 * v + (if bit then 1 else 0)) acc
      = acc * 2 ^ w + n % 2 ^ w := by
  intro w
  induction w with
  | zero => intro acc; simp [natToTopBits, Nat.mod_one]
  | succ w ih =>
    intro acc
    have hsplit : n % 2 ^ (w + 1) = n % 2 ^ w + 2 ^ w * (n / 2 ^ w % 2) := by
      have := @Nat.mod_mul (2 ^ w) 2 n
      simpa [pow_succ] using this
    have hbit : (if n.testBit w then (1 : Nat) else 0) = n / 2 ^ w % 2 := by
      rcases Nat.mod_two_eq_zero_or_one (n / 2 ^ w) with h | h <;>
        simp [Nat.testBit_to_div_mod, h]
    simp only [natToTopBits, List.foldl_cons, ih, hbit]
    have h2 : (2 : Nat) ^ (w + 1) = 2 ^ w * 2 := by ring
    rw [hsplit, h2]
    ring

theorem bitsToNat_natToTopBits (n w : Nat) : bitsToNat (natToTopBits n w) = n % 2 ^ w := by
  simpa using bitsToNat_natToTopBits_aux n w 0

theorem trimZ_eq_nil_iff (l : List Nat) : trimZ l = [] ↔ leNat l = 0 := by
  induction l with
  | nil => simp [trimZ, leNat]
  | cons x xs ih =>
    simp only [trimZ, leNat]
    rcases h : trimZ xs with _ | ⟨y, ys⟩
    · have hxs : leNat xs = 0 := (ih.mp h)
      by_cases hx : x = 0 <;> simp [hx, hxs]
    · have hxs : leNat xs ≠ 0 := by
        intro h0
        rw [ih.mpr h0] at h
        cases h
      simp only []
      constructor
      · intro hh; cases hh
      · intro hh; omega

theorem natBytesLEGo_leNat (l : List Nat) :
    ∀ fuel, (∀ x ∈ l, x < 256) → leNat l ≤ fuel → natBytesLEGo fuel (leNat l) = trimZ l := by
  induction l with
  | nil =>
    intro fuel _ _
    cases fuel <;> simp [natBytesLEGo, leNat, trimZ]
  | cons x xs ih =>
    intro fuel hb hfuel
    have hx : x < 256 := hb x (List.mem_cons_self x xs)
    have hbs : ∀ y ∈ xs, y < 256 := fun y hy => hb y (List.mem_cons_of_mem x hy)
    by_cases hv : leNat (x :: xs) = 0
    · have hx0 : x = 0 := by simp only [leNat] at hv; omega
      have hxs0 : leNat xs = 0 := by simp only [leNat] at hv; omega
      have : trimZ (x :: xs) = [] := by
        simp only [trimZ, (trimZ_eq_nil_iff xs).mpr hxs0, hx0]
        simp
      rw [this, hv]
      cases fuel <;> simp [natBytesLEGo]
    · have hfuel1 : 1 ≤ fuel := by
        rcases Nat.eq_zero_or_pos fuel with h | h
        · omega
        · omega
      obtain ⟨f, rfl⟩ : ∃ f, fuel = f + 1 := ⟨fuel - 1, by omega⟩
      have hmod : leNat (x :: xs) % 256 = x := by
        simp only [leNat]
        rw [Nat.add_mul_mod_self_left]
        exact Nat.mod_eq_of_lt hx
      have hdiv : leNat (x :: xs) / 256 = leNat xs := by
        simp only [leNat]
        rw [Nat.add_mul_div_left _ _ (by norm_num : (0:Nat) < 256)]
        simp [Nat.div_eq_of_lt hx]
      have hle : leNat xs ≤ f := by
        simp only [leNat] at hfuel hv
        omega
      simp only [natBytesLEGo, hv, if_false, hmod, hdiv, ih f hbs hle]
      rcases h : trimZ xs with _ | ⟨y, ys⟩
      · have hxs0 : leNat xs = 0 := (trimZ_eq_nil_iff xs).mp h
        have hx0 : x ≠ 0 := by simp only [leNat] at hv; omega
        simp [trimZ, h, hx0]
      · simp [trimZ, h]

theorem natBytesLE_leNat (l : List Nat) (hb : ∀ x ∈ l, x < 256) :
    natBytesLE (leNat l) = trimZ l :=
  natBytesLEGo_leNat l (leNat l) hb le_rfl

theorem trimZ_reverse (l : List Nat) :
    (trimZ l).reverse = l.reverse.dropWhile (· == 0) := by
  induction l with
  | nil => simp [trimZ]
  | cons x xs ih =>
    simp only [trimZ, List.reverse_cons, List.dropWhile_append]
    rcases h : trimZ xs with _ | ⟨y, ys⟩
    · rw [h] at ih
      simp only [List.reverse_nil] at ih
      rw [← ih]
      by_cases hx : x = 0
      · simp [hx, List.dropWhile]
      · have hxb : (x == 0) = false := by simpa using hx
        simp [hx, List.dropWhile, hxb]
    · rw [h] at ih
      have hne : List.dropWhile (· == 0) xs.reverse ≠ [] := by
        rw [← ih]; simp
      simp only [← ih]
      simp [List.isEmpty_iff, hne]

/-- The byte round trip of the bit-array helper: the little-endian loop of
`bitstring_to_bytes` drops what becomes the leading zero bytes of the
big-endian result. -/
theorem fromlist_tolist (b : List Nat) (hb : ∀ x ∈ b, x < 256) :
    fromlist (tolist b) = b.dropWhile (· == 0) := by
  have hrev : ∀ x ∈ b.reverse, x < 256 := fun x hx => hb x (List.mem_reverse.mp hx)
  have hlt : beNat b < 2 ^ (8 * b.length) := by
    have := leNat_lt_pow b.reverse hrev
    have h2 : (256 : Nat) ^ b.reverse.length = 2 ^ (8 * b.length) := by
      rw [List.length_reverse, show (256 : Nat) = 2 ^ 8 by norm_num, ← pow_mul]
    rw [beNat]
    omega
  have hval : bitsToNat (tolist b) = beNat b := by
    rw [tolist, bitsToNat_natToTopBits, Nat.mod_eq_of_lt hlt]
  rw [fromlist, bitstring_to_bytes, hval, beNat, natBytesLE_leNat b.reverse hrev,
    trimZ_reverse, List.reverse_reverse]

/-! ## Lemmas: 1014 blocking -/

theorem unblock1014Go_congr : ∀ f1 f2 input, input.length ≤ f1 → input.length ≤ f2 →
    unblock1014Go f1 input = unblock1014Go f2 input := by
  intro f1
  induction f1 with
  | zero =>
    intro f2 input h1 _
    have hnil : input = [] := List.length_eq_zero.mp (by omega)
    subst hnil
    cases f2 <;> simp [unblock1014Go]
  | succ f ih =>
    intro f2 input h1 h2
    by_cases hnil : input = []
    · subst hnil
      cases f2 <;> simp [unblock1014Go]
    · have hpos : 0 < input.length := List.length_pos.mpr hnil
      obtain ⟨g, rfl⟩ : ∃ g, f2 = g + 1 := ⟨f2 - 1, by omega⟩
      have hrec : unblock1014Go f (input.drop 1014) = unblock1014Go g (input.drop 1014) := by
        apply ih
        · simp only [List.length_drop]; omega
        · simp only [List.length_drop]; omega
      simp only [unblock1014Go, hnil, if_false, hrec]

/-- Unblocking a well-formed block followed by more data peels off the block. -/
theorem unblock_1014_step (R Y : List Nat) (hR : R.length = 1012) :
    unblock_1014 (R ++ ([0x40, 0x40] ++ Y)) = (unblock_1014 Y).map (R ++ ·) := by
  have hlen : (R ++ ([0x40, 0x40] ++ Y)).length = 1014 + Y.length := by
    simp [hR]
    omega
  have hnil : R ++ ([0x40, 0x40] ++ Y) ≠ [] := by
    simp
  have htake : (R ++ ([0x40, 0x40] ++ Y)).take 1014 = R ++ [0x40, 0x40] := by
    rw [List.take_append_eq_append_take, hR]
    have h1 : R.take 1014 = R := List.take_of_length_le (by omega)
    rw [h1]
    simp
  have hdrop : (R ++ ([0x40, 0x40] ++ Y)).drop 1014 = Y := by
    rw [List.drop_append_eq_append_drop, hR]
    have h1 : R.drop 1014 = [] := List.drop_eq_nil_of_le (by omega)
    rw [h1]
    simp
  have htail : (R ++ [0x40, 0x40]).drop 1012 = [0x40, 0x40] :=
    @List.drop_left' _ R [0x40, 0x40] 1012 hR
  have hhead : (R ++ [0x40, 0x40]).take 1012 = R :=
    @List.take_left' _ R [0x40, 0x40] 1012 hR
  have hlen2 : (R ++ [0x40, 0x40]).length = 1014 := by simp [hR]
  rw [unblock_1014, hlen, show 1014 + Y.length = (1013 + Y.length) + 1 by omega]
  simp only [unblock1014Go]
  rw [if_neg hnil, htake, hdrop, hlen2, htail, hhead]
  rw [if_neg (by simp : ¬ (1014 : Nat) ≠ 1014)]
  rw [if_neg (by simp : ¬ ([0x40, 0x40] : List Nat) ≠ [0x40, 0x40])]
  rw [unblock1014Go_congr (1013 + Y.length) Y.length Y (by omega) le_rfl]
  rfl

theorem unblock_block1014Go : ∀ fuel S, S.length ≤ fuel →
    unblock_1014 (block1014Go fuel S)
      = .ok (S ++ List.replicate ((1012 - S.length % 1012) % 1012) 0x40) := by
  intro fuel
  induction fuel with
  | zero =>
    intro S h
    have hnil : S = [] := List.length_eq_zero.mp (by omega)
    subst hnil
    simp [block1014Go, unblock_1014, unblock1014Go]
  | succ f ih =>
    intro S h
    by_cases hnil : S = []
    · subst hnil
      simp [block1014Go, unblock_1014, unblock1014Go]
    · have hpos : 0 < S.length := List.length_pos.mpr hnil
      by_cases hge : 1012 ≤ S.length
      · have htl : (S.take 1012).length = 1012 := by
          simp [List.length_take]
          omega
        have hrecord : block1014Go (f + 1) S
            = S.take 1012 ++ ([0x40, 0x40] ++ block1014Go f (S.drop 1012)) := by
          simp only [block1014Go, hnil, if_false, htl]
          simp
        rw [hrecord, unblock_1014_step _ _ htl,
          ih (S.drop 1012) (by simp only [List.length_drop]; omega)]
        have hmod : (S.drop 1012).length % 1012 = S.length % 1012 := by
          simp only [List.length_drop]
          omega
        rw [hmod]
        simp only [Except.map]
        rw [← List.append_assoc, List.take_append_drop]
      · have htl : (S.take 1012).length = S.length := by
          simp [List.length_take]
          omega
        have hpad : block1014Go (f + 1) S
            = (S ++ List.replicate (1012 - S.length) 0x40) ++ ([0x40, 0x40] ++ []) := by
          simp only [block1014Go]
          rw [if_neg hnil]
          have h1 : S.take 1012 = S := List.take_of_length_le (by omega)
          have h2 : S.drop 1012 = [] := List.drop_eq_nil_of_le (by omega)
          rw [h1, h2]
          have h3 : block1014Go f [] = [] := by cases f <;> simp [block1014Go]
          rw [h3]
          rw [if_pos (by omega : S.length ≠ 1012)]
          simp
        rw [hpad, unblock_1014_step _ _ (by simp [List.length_replicate]; omega)]
        have h4 : unblock_1014 [] = .ok [] := by simp [unblock_1014, unblock1014Go]
        rw [h4]
        simp only [Except.map]
        have : (1012 - S.length % 1012) % 1012 = 1012 - S.length := by omega
        rw [this]
        simp

/-- C2 (amended): unblocking a blocked stream returns the stream padded with
`0x40` to the next multiple of 1012 (the final short 1012-byte chunk is
filled before blocking); it returns the stream itself exactly when the
stream's length is a multiple of 1012.  (The claim's unconditional identity
fails for lengths not a multiple of 1012.) -/
theorem claim_C2 (S : List Nat) :
    unblock_1014 (block_1014 S)
        = .ok (S ++ List.replicate ((1012 - S.length % 1012) % 1012) 0x40)
      ∧ (unblock_1014 (block_1014 S) = .ok S ↔ S.length % 1012 = 0) := by
  have h := unblock_block1014Go S.length S le_rfl
  rw [block_1014]
  refine ⟨h, ?_⟩
  rw [h]
  constructor
  · intro hh
    injection hh with hv
    have := congrArg List.length hv
    simp only [List.length_append, List.length_replicate] at this
    omega
  · intro hh
    have : (1012 - S.length % 1012) % 1012 = 0 := by omega
    rw [this]
    simp

set_option maxRecDepth 100000 in
/-- C2 counterexample: a one-byte stream comes back padded to 1012 bytes, not
equal to itself. -/
theorem claim_C2_counterexample :
    unblock_1014 (block_1014 [0x31]) = .ok (0x31 :: List.replicate 1011 0x40) ∧
      unblock_1014 (block_1014 [0x31]) ≠ .ok [0x31] := by
  constructor <;> decide

/-- The 1014-block invariant of the claim: the total length is a multiple of
1014, and within every 1014-byte block the bytes at (0-based) offsets 1012
and 1013 are the pad byte `0x40`. -/
def Blocked1014 (l : List Nat) : Prop :=
  l.length % 1014 = 0 ∧ ∀ k, 1014 * k + 1014 ≤ l.length →
    l[1014 * k + 1012]? = some 0x40 ∧ l[1014 * k + 1013]? = some 0x40

theorem blocked1014_nil : Blocked1014 [] := by
  constructor
  · simp
  · intro k hk
    simp at hk

theorem blocked1014_single (B : List Nat) (hlen : B.length = 1014)
    (h1 : B[1012]? = some 0x40) (h2 : B[1013]? = some 0x40) : Blocked1014 B := by
  constructor
  · simp [hlen]
  · intro k hk
    have hk0 : k = 0 := by omega
    subst hk0
    simpa using ⟨h1, h2⟩

theorem blocked1014_append (A B : List Nat) (hA : Blocked1014 A) (hB : Blocked1014 B) :
    Blocked1014 (A ++ B) := by
  obtain ⟨hAmod, hAidx⟩ := hA
  obtain ⟨hBmod, hBidx⟩ := hB
  constructor
  · simp only [List.length_append]
    omega
  · intro k hk
    simp only [List.length_append] at hk
    by_cases hin : 1014 * k + 1014 ≤ A.length
    · obtain ⟨p1, p2⟩ := hAidx k hin
      rw [List.getElem?_append, if_pos (by omega), p1,
        List.getElem?_append, if_pos (by omega), p2]
      exact ⟨rfl, rfl⟩
    · obtain ⟨a, ha⟩ : ∃ a, A.length = 1014 * a := ⟨A.length / 1014, by omega⟩
      have hka : a ≤ k := by
        by_contra hcon
        have : k + 1 ≤ a := by omega
        have : 1014 * (k + 1) ≤ 1014 * a := by
          exact Nat.mul_le_mul_left 1014 this
        omega
      obtain ⟨p1, p2⟩ := hBidx (k - a) (by
        have : 1014 * (k - a) = 1014 * k - 1014 * a := Nat.mul_sub_left_distrib 1014 k a
        omega)
      have e1 : 1014 * k + 1012 - A.length = 1014 * (k - a) + 1012 := by
        rw [ha]
        have : 1014 * (k - a) = 1014 * k - 1014 * a := Nat.mul_sub_left_distrib 1014 k a
        omega
      have e2 : 1014 * k + 1013 - A.length = 1014 * (k - a) + 1013 := by
        rw [ha]
        have : 1014 * (k - a) = 1014 * k - 1014 * a := Nat.mul_sub_left_distrib 1014 k a
        omega
      rw [List.getElem?_append, if_neg (by omega), e1, p1,
        List.getElem?_append, if_neg (by omega), e2, p2]
      exact ⟨rfl, rfl⟩

theorem blocked1014_chunk (R : List Nat) (hR : R.length = 1012) :
    Blocked1014 (R ++ [0x40, 0x40]) := by
  apply blocked1014_single
  · simp [hR]
  · rw [List.getElem?_append, if_neg (by omega), hR]
    rfl
  · rw [List.getElem?_append, if_neg (by omega), hR]
    rfl

theorem block1014Go_blocked : ∀ fuel S, Blocked1014 (block1014Go fuel S) := by
  intro fuel
  induction fuel with
  | zero => intro S; exact blocked1014_nil
  | succ f ih =>
    intro S
    by_cases hnil : S = []
    · subst hnil
      simpa [block1014Go] using blocked1014_nil
    · simp only [block1014Go]
      rw [if_neg hnil]
      set R := if (S.take 1012).length ≠ 1012
        then S.take 1012 ++ List.replicate (1012 - (S.take 1012).length) 0x40
        else S.take 1012 with hRdef
      have hRlen : R.length = 1012 := by
        rw [hRdef]
        split
        · simp only [List.length_append, List.length_replicate]
          have : (S.take 1012).length ≤ 1012 := by
            simp [List.length_take]
          omega
        · omega
      rw [show R ++ [0x40, 0x40] ++ block1014Go f (S.drop 1012)
          = (R ++ [0x40, 0x40]) ++ block1014Go f (S.drop 1012) by
        simp [List.append_assoc]]
      exact blocked1014_append _ _ (blocked1014_chunk R hRlen) (ih _)

/-- The invariant carried by the streaming `Block1014` writer: the room left
never exceeds 1012, and the output splits into complete well-formed blocks
followed by the partial window of `1012 - remaining_chars` bytes. -/
def Block1014.Inv (st : Block1014) : Prop :=
  st.remaining_chars ≤ 1012 ∧ ∃ A B, st.out = A ++ B ∧ Blocked1014 A ∧
    B.length = 1012 - st.remaining_chars

theorem Block1014.init_inv : Block1014.Inv Block1014.init := by
  refine ⟨?_, [], [], ?_, blocked1014_nil, ?_⟩ <;> simp [Block1014.init]

theorem Block1014.writeLoop_inv : ∀ (n : Nat) (bs : List Nat), bs.length ≤ n →
    ∀ out, Blocked1014 out → Block1014.Inv (Block1014.writeLoop out bs) := by
  intro n
  induction n with
  | zero =>
    intro bs hlen out hout
    have hbs : ¬ 1012 < bs.length := by omega
    rw [Block1014.writeLoop, if_neg hbs]
    refine ⟨?_, out, bs, rfl, hout, ?_⟩ <;> dsimp only <;> omega
  | succ n ihn =>
    intro bs hlen out hout
    rw [Block1014.writeLoop]
    split
    · rename_i hgt
      have htk : (bs.take 1012).length = 1012 := by
        simp [List.length_take]
        omega
      have hassoc : out ++ bs.take 1012 ++ [0x40, 0x40]
          = out ++ (bs.take 1012 ++ [0x40, 0x40]) := by
        simp [List.append_assoc]
      rw [hassoc]
      exact ihn (bs.drop 1012) (by simp only [List.length_drop]; omega) _
        (blocked1014_append _ _ hout (blocked1014_chunk _ htk))
    · rename_i hle
      refine ⟨?_, out, bs, rfl, hout, ?_⟩ <;> dsimp only <;> omega

theorem Block1014.write_inv (st : Block1014) (bs : List Nat) (h : Block1014.Inv st) :
    Block1014.Inv (st.write bs) := by
  obtain ⟨hr, A, B, hout, hA, hB⟩ := h
  rw [Block1014.write]
  split
  · rename_i hlt
    refine ⟨?_, A, B ++ bs, ?_, hA, ?_⟩
    · dsimp only
      omega
    · dsimp only
      simp [hout, List.append_assoc]
    · dsimp only
      simp only [List.length_append]
      omega
  · rename_i hge
    have htk : (bs.take st.remaining_chars).length = st.remaining_chars := by
      simp [List.length_take]
      omega
    have hchunk : (B ++ (bs.take st.remaining_chars ++ [0x40, 0x40])).length = 1014 := by
      simp only [List.length_append, htk, hB, List.length_cons, List.length_nil]
      omega
    have hpos1 : (B ++ (bs.take st.remaining_chars ++ [0x40, 0x40]))[1012]? = some 0x40 := by
      rw [List.getElem?_append, if_neg (by omega),
        List.getElem?_append, if_neg (by omega)]
      have : 1012 - B.length - (bs.take st.remaining_chars).length = 0 := by omega
      rw [this]
      rfl
    have hpos2 : (B ++ (bs.take st.remaining_chars ++ [0x40, 0x40]))[1013]? = some 0x40 := by
      rw [List.getElem?_append, if_neg (by omega),
        List.getElem?_append, if_neg (by omega)]
      have : 1013 - B.length - (bs.take st.remaining_chars).length = 1 := by omega
      rw [this]
      rfl
    have hassoc : st.out ++ bs.take st.remaining_chars ++ [0x40, 0x40]
        = (A ++ (B ++ (bs.take st.remaining_chars ++ [0x40, 0x40]))) := by
      simp [hout, List.append_assoc]
    rw [hassoc]
    exact Block1014.writeLoop_inv (bs.drop st.remaining_chars).length _ le_rfl _
      (blocked1014_append _ _ hA (blocked1014_single _ hchunk hpos1 hpos2))

theorem Block1014.finalise_blocked (st : Block1014) (h : Block1014.Inv st) :
    Blocked1014 st.finalise.out := by
  obtain ⟨hr, A, B, hout, hA, hB⟩ := h
  rw [Block1014.finalise]
  simp only [hout]
  have hassoc : A ++ B ++ List.replicate (st.remaining_chars + 2) 0x40
      = A ++ (B ++ List.replicate (st.remaining_chars + 2) 0x40) := by
    simp [List.append_assoc]
  rw [hassoc]
  apply blocked1014_append _ _ hA
  apply blocked1014_single
  · simp only [List.length_append, List.length_replicate]
    omega
  · rw [List.getElem?_append, if_neg (by omega), List.getElem?_replicate,
      if_pos (by omega)]
  · rw [List.getElem?_append, if_neg (by omega), List.getElem?_replicate,
      if_pos (by omega)]

theorem Block1014.run_blocked (writes : List (List Nat)) :
    Blocked1014 (Block1014.run writes) := by
  apply Block1014.finalise_blocked
  have : ∀ (ws : List (List Nat)) (st : Block1014), Block1014.Inv st →
      Block1014.Inv (ws.foldl Block1014.write st) := by
    intro ws
    induction ws with
    | nil => intro st h; exact h
    | cons w rest ih =>
      intro st h
      exact ih _ (Block1014.write_inv st w h)
  exact this writes Block1014.init Block1014.init_inv

/-- C4: every output of the 1014 blocking layer — the whole-file
`block_1014` pass, and equally the `Block1014` writer after any sequence of
writes followed by finalisation on close — has length a multiple of 1014 and
carries the two `0x40` pad bytes at the end of every 1014-byte block. -/
theorem claim_C4 :
    (∀ S : List Nat, Blocked1014 (block_1014 S)) ∧
      (∀ writes : List (List Nat), Blocked1014 (Block1014.run writes)) :=
  ⟨fun S => block1014Go_blocked S.length S, Block1014.run_blocked⟩

/-! ## Lemmas: Unblock1014.read -/

theorem Unblock1014.readLoop_consumes : ∀ (n : Nat) (source : List Nat), source.length ≤ n →
    ∀ buffer bytes_to_read,
      (Unblock1014.readLoop buffer source bytes_to_read true).2 = [] := by
  intro n
  induction n with
  | zero =>
    intro source hlen buffer k
    have hnil : source = [] := List.length_eq_zero.mp (by omega)
    subst hnil
    rw [Unblock1014.readLoop, if_pos (Or.inl rfl), if_pos rfl]
  | succ n ih =>
    intro source hlen buffer k
    by_cases hnil : source = []
    · subst hnil
      rw [Unblock1014.readLoop, if_pos (Or.inl rfl), if_pos rfl]
    · rw [Unblock1014.readLoop, if_pos (Or.inl rfl), if_neg hnil]
      exact ih _ (by simp only [List.length_drop]; omega) _ _

/-- C10: `Unblock1014.read` with its default `bytes_to_read = 0` argument
returns the empty byte string no matter what the buffer and the wrapped
source hold — the fill loop runs until the source is exhausted (the leftover
source is empty), but the returned slice `buffer[:0]` is always empty. -/
theorem claim_C10 (buffer source : List Nat) :
    (Unblock1014.read buffer source 0).1 = []
      ∧ (Unblock1014.read buffer source 0).2.2 = [] := by
  constructor
  · rw [Unblock1014.read]
    simp
  · rw [Unblock1014.read]
    exact Unblock1014.readLoop_consumes source.length source le_rfl buffer 0

/-! ## Lemmas: VBS framing -/

theorem pack32_length (n : Nat) : (pack32 n).length = 4 := by
  simp [pack32]

theorem beNat_pack32 (n : Nat) (h : n < 2 ^ 32) : beNat (pack32 n) = n := by
  simp only [beNat, pack32, List.reverse_cons, List.reverse_nil, leNat, List.nil_append,
    List.cons_append, List.append_assoc, List.singleton_append]
  norm_num
  omega

theorem unpackInt32_pack32 (n : Nat) (h : n ≤ 3000) : unpackInt32 (pack32 n) = (n : Int) := by
  have hu : beNat (pack32 n) = n := beNat_pack32 n (by omega)
  simp only [unpackInt32, hu]
  rw [if_pos (by omega : n < 2 ^ 31)]

theorem vbsGo_congr : ∀ f1 f2 num last data, data.length ≤ f1 → data.length ≤ f2 →
    vbsGo f1 num last data = vbsGo f2 num last data := by
  intro f1
  induction f1 with
  | zero =>
    intro f2 num last data h1 _
    have hnil : data = [] := List.length_eq_zero.mp (by omega)
    subst hnil
    cases f2 <;> simp [vbsGo]
  | succ f ih =>
    intro f2 num last data h1 h2
    by_cases h4 : (data.take 4).length ≠ 4
    · cases f2 with
      | zero =>
        have hnil : data = [] := List.length_eq_zero.mp (by omega)
        subst hnil
        simp [vbsGo]
      | succ g =>
        simp only [vbsGo]
        rw [if_pos h4, if_pos h4]
    · have hlen : 4 ≤ data.length := by
        simp only [List.length_take, ne_eq, not_not] at h4
        omega
      obtain ⟨g, rfl⟩ : ∃ g, f2 = g + 1 := ⟨f2 - 1, by omega⟩
      have hrec : ∀ m, vbsGo f (num + 1) m
            (data.drop (4 + (unpackInt32 (data.take 4)).toNat))
          = vbsGo g (num + 1) m
            (data.drop (4 + (unpackInt32 (data.take 4)).toNat)) := by
        intro m
        apply ih
        · simp only [List.length_drop]; omega
        · simp only [List.length_drop]; omega
      simp only [vbsGo, hrec]

theorem vbs_list_to_bytes_cons (r : List Nat) (rest : List (List Nat)) :
    vbs_list_to_bytes (r :: rest) = pack32 r.length ++ (r ++ vbs_list_to_bytes rest) := by
  simp [vbs_list_to_bytes, List.append_assoc]

theorem vbs_roundGo : ∀ (L : List (List Nat)) (num : Nat) (last : Option (List Nat)),
    (∀ r ∈ L, r ≠ [] ∧ r.length ≤ 3000) →
    vbsReadRecords num last (vbs_list_to_bytes L) = .ok L := by
  intro L
  induction L with
  | nil =>
    intro num last _
    rfl
  | cons r rest ih =>
    intro num last hr
    obtain ⟨hrne, hrlen⟩ := hr r (List.mem_cons_self r rest)
    have hrest : ∀ x ∈ rest, x ≠ [] ∧ x.length ≤ 3000 :=
      fun x hx => hr x (List.mem_cons_of_mem r hx)
    rw [vbs_list_to_bytes_cons, vbsReadRecords]
    set data := pack32 r.length ++ (r ++ vbs_list_to_bytes rest) with hdata
    have hdlen : data.length = 4 + r.length + (vbs_list_to_bytes rest).length := by
      simp [hdata, pack32_length]
      omega
    have htake : data.take 4 = pack32 r.length := by
      rw [hdata, List.take_append_eq_append_take]
      rw [show (4 : Nat) - (pack32 r.length).length = 0 by simp [pack32_length]]
      rw [List.take_of_length_le (by simp [pack32_length])]
      simp
    have hdrop4 : data.drop 4 = r ++ vbs_list_to_bytes rest := by
      rw [hdata, show (4 : Nat) = (pack32 r.length).length by simp [pack32_length],
        List.drop_left]
    have hupk : unpackInt32 (data.take 4) = (r.length : Int) := by
      rw [htake, unpackInt32_pack32 r.length hrlen]
    obtain ⟨m, hm⟩ : ∃ m, data.length = m + 1 := ⟨data.length - 1, by omega⟩
    rw [hm]
    simp only [vbsGo]
    rw [if_neg (by rw [htake, pack32_length]; omega)]
    rw [hupk]
    have hrl0 : r.length ≠ 0 := by simpa [List.length_eq_zero] using hrne
    rw [if_neg (by push_neg; omega)]
    rw [if_neg (by omega : ¬ ((r.length : Int) = 0))]
    rw [Int.toNat_natCast, hdrop4, List.take_left' rfl]
    rw [if_neg (by simp)]
    have hdropn : data.drop (4 + r.length) = vbs_list_to_bytes rest := by
      rw [hdata, List.drop_append_eq_append_drop]
      rw [List.drop_eq_nil_of_le (by rw [pack32_length]; omega)]
      rw [pack32_length, show 4 + r.length - 4 = r.length from by omega]
      rw [List.drop_left' rfl]
      simp
    rw [hdropn]
    rw [vbsGo_congr m (vbs_list_to_bytes rest).length (num + 1) _ _ (by omega) le_rfl]
    have hih := ih (num + 1) (some (data.take 4 ++ r)) hrest
    rw [vbsReadRecords] at hih
    rw [hih]
    rfl

/-- C5 (amended): writing a record list with `vbs_list_to_bytes` and reading
it back with `vbs_bytes_to_list` recovers the list, provided every record is
non-empty and at most 3000 bytes.  (The claim's unconditional round trip
fails: an empty record writes the zero-length end-of-stream sentinel and is
swallowed, and a record longer than 3000 bytes makes the reader raise
`MciIpmDataError`.) -/
theorem claim_C5 (L : List (List Nat)) (h : ∀ r ∈ L, r ≠ [] ∧ r.length ≤ 3000) :
    vbs_bytes_to_list (vbs_list_to_bytes L) = .ok L :=
  vbs_roundGo L 1 none h

/-- C5 witness: the amended round trip at a concrete two-record list. -/
theorem claim_C5_witness :
    (∀ r ∈ [[0x41, 0x42], [0x43]], r ≠ ([] : List Nat) ∧ r.length ≤ 3000) ∧
      vbs_bytes_to_list (vbs_list_to_bytes [[0x41, 0x42], [0x43]])
        = .ok [[0x41, 0x42], [0x43]] :=
  ⟨by decide, claim_C5 [[0x41, 0x42], [0x43]] (by decide)⟩

/-- C5 counterexample: a list holding one empty record round-trips to the
empty list — the zero length written for it is the end-of-stream sentinel. -/
theorem claim_C5_counterexample :
    vbs_bytes_to_list (vbs_list_to_bytes [[]]) = .ok [] ∧
      vbs_bytes_to_list (vbs_list_to_bytes [[]]) ≠ .ok [[]] := by
  constructor <;> decide

/-- C6 (amended): when the 4-byte record length decodes to a negative or
greater-than-3000 value, the reader fails with a data error carrying the
current 1-based record number and, as binary context, the previously
completed raw record — which at record 1 is `None`, not the offending four
length bytes. -/
theorem claim_C6 (num : Nat) (last : Option (List Nat)) (data : List Nat)
    (h4 : 4 ≤ data.length)
    (hbad : unpackInt32 (data.take 4) < 0 ∨ 3000 < unpackInt32 (data.take 4)) :
    vbsReadRecords num last data = .error ⟨num, last⟩ := by
  rw [vbsReadRecords]
  obtain ⟨m, hm⟩ : ∃ m, data.length = m + 1 := ⟨data.length - 1, by omega⟩
  rw [hm]
  simp only [vbsGo]
  rw [if_neg (by simp only [List.length_take, ne_eq, not_not]; omega)]
  rw [if_pos hbad]

/-- C6 witness: the amended behaviour on the stream `FF FF 00 00` read from a
fresh reader — error at record 1 with empty binary context. -/
theorem claim_C6_witness :
    4 ≤ ([0xFF, 0xFF, 0x00, 0x00] : List Nat).length ∧
      (unpackInt32 (([0xFF, 0xFF, 0x00, 0x00] : List Nat).take 4) < 0 ∨
        3000 < unpackInt32 (([0xFF, 0xFF, 0x00, 0x00] : List Nat).take 4)) ∧
      vbsReadRecords 1 none [0xFF, 0xFF, 0x00, 0x00] = .error ⟨1, none⟩ :=
  ⟨by decide, by decide, claim_C6 1 none [0xFF, 0xFF, 0x00, 0x00] (by decide) (by decide)⟩

/-- C6 counterexample: on `FF FF 00 00` the error's binary context is `none`
(the reader passes `last_record`, still unset at record 1), so it does not
contain the offending four length bytes as claimed. -/
theorem claim_C6_counterexample :
    vbs_bytes_to_list [0xFF, 0xFF, 0x00, 0x00] = .error ⟨1, none⟩ := by
  decide
/-! ## Lemmas: ICC TLV sub-parsing -/

theorem icc_warn_ok (fuel : Nat) :
    (∀ field_data p acc, ∃ rest,
        iccLoop fuel .WARN field_data p acc = .ok (acc ++ rest)) ∧
      (∀ field_data p acc tag, ∃ rest,
        iccTag fuel .WARN field_data p acc tag = .ok (acc ++ rest)) := by
  induction fuel with
  | zero =>
    constructor
    · intro d p acc
      exact ⟨[], by simp [iccLoop]⟩
    · intro d p acc t
      exact ⟨[], by simp [iccTag]⟩
  | succ f ih =>
    obtain ⟨ihL, ihT⟩ := ih
    constructor
    · intro d p acc
      simp only [iccLoop]
      split
      · split
        · split
          · exact ihT d _ acc _
          · exact ⟨[], by simp⟩
        · split
          · exact ⟨[], by simp⟩
          · exact ihT d _ acc _
      · exact ⟨[], by simp⟩
    · intro d p acc t
      simp only [iccTag]
      split
      · split
        · exact ⟨[], by simp⟩
        · obtain ⟨rest, hrest⟩ := ihL d _ (acc ++
            [("TAG" ++ upperHex (b2a_hex t), PyVal.str (b2a_hex ((d.drop (p + 1)).take (d.get ⟨p, by assumption⟩))))])
          exact ⟨_, by rw [hrest, List.append_assoc]⟩
      · exact ⟨[], by simp⟩

theorem icc_mode_cases (fuel : Nat) :
    (∀ field_data p acc,
        iccLoop fuel .ERROR field_data p acc = iccLoop fuel .WARN field_data p acc
          ∨ ∃ e, iccLoop fuel .ERROR field_data p acc = .error e) ∧
      (∀ field_data p acc tag,
        iccTag fuel .ERROR field_data p acc tag = iccTag fuel .WARN field_data p acc tag
          ∨ ∃ e, iccTag fuel .ERROR field_data p acc tag = .error e) := by
  induction fuel with
  | zero =>
    constructor
    · intro d p acc
      exact Or.inl rfl
    · intro d p acc t
      exact Or.inl rfl
  | succ f ih =>
    obtain ⟨ihL, ihT⟩ := ih
    constructor
    · intro d p acc
      simp only [iccLoop]
      split
      · split
        · split
          · exact ihT d _ acc _
          · exact Or.inr ⟨_, rfl⟩
        · split
          · exact Or.inl rfl
          · exact ihT d _ acc _
      · exact Or.inl rfl
    · intro d p acc t
      simp only [iccTag]
      split
      · split
        · exact Or.inr ⟨_, rfl⟩
        · exact ihL d _ _
      · exact Or.inr ⟨_, rfl⟩

theorem iccOnError_warn : iccOnError (some "on_error=WARN") = .WARN := by decide

theorem iccOnError_err : iccOnError (some "on_error=ERROR") = .ERROR := by decide

/-- C7: under the spec-modelled ICC TLV sub-parser, the `field_processor_config`
selects the failure behaviour.  Under WARN the parse always succeeds with
`ICC_DATA` kept at the head and the tags collected so far retained; under
ERROR the parse either agrees with the WARN run (well-formed data) or
surfaces a data error — as it does on the concrete malformed fields: a field
ending mid-tag (`9F`), a length running past the buffer (`9F 02 06 00 00`),
and a valid tag followed by a truncated one (where WARN retains `TAG9F02`
and keeps `ICC_DATA`). -/
theorem claim_C7 :
    (∀ field_data : List Nat, ∃ rest,
        _icc_to_dict field_data (some "on_error=WARN")
          = .ok (("ICC_DATA", .str (b2a_hex field_data)) :: rest))
    ∧ (∀ field_data : List Nat,
        _icc_to_dict field_data (some "on_error=ERROR")
            = _icc_to_dict field_data (some "on_error=WARN")
          ∨ ∃ e, _icc_to_dict field_data (some "on_error=ERROR") = .error e)
    ∧ _icc_to_dict [0x9f] (some "on_error=ERROR") = .error "Unable to parse ICC tag"
    ∧ _icc_to_dict [0x9f] (some "on_error=WARN") = .ok [("ICC_DATA", .str "9f")]
    ∧ _icc_to_dict [0x9f, 0x02, 0x06, 0x00, 0x00] (some "on_error=ERROR")
        = .error "Unable to parse ICC value"
    ∧ _icc_to_dict [0x9f, 0x02, 0x06, 0x00, 0x00] (some "on_error=WARN")
        = .ok [("ICC_DATA", .str "9f02060000")]
    ∧ _icc_to_dict [0x9f, 0x02, 0x06, 0, 0, 0, 0, 0x10, 0, 0x9f, 0x03] (some "on_error=ERROR")
        = .error "Unable to parse ICC length"
    ∧ _icc_to_dict [0x9f, 0x02, 0x06, 0, 0, 0, 0, 0x10, 0, 0x9f, 0x03] (some "on_error=WARN")
        = .ok [("ICC_DATA", .str "9f02060000000010009f03"),
               ("TAG9F02", .str "000000001000")] := by
  refine ⟨?_, ?_, by decide, by decide, by decide, by decide, by decide, by decide⟩
  · intro field_data
    rw [_icc_to_dict, iccOnError_warn]
    obtain ⟨rest, hrest⟩ := (icc_warn_ok (2 * field_data.length + 2)).1 field_data 0
      [("ICC_DATA", .str (b2a_hex field_data))]
    exact ⟨rest, by rw [hrest]; simp⟩
  · intro field_data
    rw [_icc_to_dict, _icc_to_dict, iccOnError_warn, iccOnError_err]
    exact (icc_mode_cases (2 * field_data.length + 2)).1 field_data 0
      [("ICC_DATA", .str (b2a_hex field_data))]


/-! ## Claims on the ISO 8583 codec -/

set_option maxRecDepth 100000 in
/-- C1: encoding the dictionary (MTI `1234`, DE2 `123`) under the default
configuration produces exactly the four latin-1 MTI bytes, a 16-byte binary
bitmap `C0 00 ... 00` (bits 1 and 2 set), the two-character LLVAR length
`03` and the value `123` — and decoding those bytes recovers the same
dictionary. -/
theorem claim_C1 :
    _dict_to_iso8583 [("MTI", .str "1234"), ("DE2", .str "123")] bit_config
      = some ([0x31, 0x32, 0x33, 0x34] ++ (0xC0 :: List.replicate 15 0)
            ++ [0x30, 0x33, 0x31, 0x32, 0x33],
          [("MTI", .str "1234"), ("DE2", .str "123")])
    ∧ _iso8583_to_dict ([0x31, 0x32, 0x33, 0x34] ++ (0xC0 :: List.replicate 15 0)
          ++ [0x30, 0x33, 0x31, 0x32, 0x33]) bit_config
      = .ok [("MTI", .str "1234"), ("DE2", .str "123")] := by
  constructor <;> decide

theorem pds_to_de_no_pds (message : Dict) (h : ∀ kv ∈ message, ¬ startsPDS kv.1) :
    _pds_to_de message = some [] := by
  have hfilter : (message.map (·.1)).filter (fun k => startsPDS k) = [] := by
    rw [List.filter_eq_nil]
    intro k hk
    obtain ⟨kv, hkv, rfl⟩ := List.mem_map.mp hk
    simpa using h kv hkv
  rw [_pds_to_de, hfilter]
  rfl

theorem snd_of_mti_bind (message : Dict) (out : List Nat × Dict) (X : Option (List Nat))
    (bm data : List Nat)
    (h : (do
        let mti ← X
        pure ((mti ++ bm ++ data : List Nat), message) : Option (List Nat × Dict)) = some out) :
    out.2 = message := by
  rcases X with _ | mti
  · simp at h
  · rw [show (do
        let mti ← (some mti : Option (List Nat))
        pure ((mti ++ bm ++ data : List Nat), message) : Option (List Nat × Dict))
        = some (mti ++ bm ++ data, message) from rfl] at h
    rw [← Option.some_inj.mp h]

/-- C9 (amended): encoding a dictionary that holds no `PDS...` keys leaves it
unchanged: the dictionary coming out of `_dict_to_iso8583` is the input.
(With PDS keys present the encoder injects synthetic `DE<n>` entries into the
caller's dictionary, so the unconditional claim fails.) -/
theorem claim_C9 (message : Dict) (h : ∀ kv ∈ message, ¬ startsPDS kv.1)
    (out : List Nat × Dict) (hout : _dict_to_iso8583 message bit_config = some out) :
    out.2 = message := by
  rw [_dict_to_iso8583, pds_to_de_no_pds message h] at hout
  obtain ⟨frags, hfrags, h1⟩ := Option.bind_eq_some.mp hout
  obtain rfl : ([] : List String) = frags := Option.some_inj.mp hfrags
  obtain ⟨msg2, hmsg2, h2⟩ := Option.bind_eq_some.mp h1
  obtain rfl : message = msg2 := Option.some_inj.mp hmsg2
  obtain ⟨st, hst, h3⟩ := Option.bind_eq_some.mp h2
  exact snd_of_mti_bind message out _ _ _ h3

set_option maxRecDepth 100000 in
/-- C9 witness: the amended claim at the dictionary (MTI `1234`, DE2 `123`),
whose encoding succeeds and returns the dictionary unchanged. -/
theorem claim_C9_witness :
    (∀ kv ∈ ([("MTI", PyVal.str "1234"), ("DE2", PyVal.str "123")] : Dict), ¬ startsPDS kv.1) ∧
      ((([0x31, 0x32, 0x33, 0x34] ++ (0xC0 :: List.replicate 15 0)
            ++ [0x30, 0x33, 0x31, 0x32, 0x33],
          [("MTI", PyVal.str "1234"), ("DE2", PyVal.str "123")]) : List Nat × Dict)).2
        = [("MTI", PyVal.str "1234"), ("DE2", PyVal.str "123")] :=
  ⟨by decide, claim_C9 [("MTI", PyVal.str "1234"), ("DE2", PyVal.str "123")] (by decide)
    _ (by decide)⟩

set_option maxRecDepth 100000 in
/-- C9 counterexample: a dictionary with a PDS key gains a synthetic `DE48`
entry during encoding — the input dictionary is mutated. -/
theorem claim_C9_counterexample :
    (_dict_to_iso8583 [("MTI", .str "1234"), ("PDS0001", .str "x")] bit_config).map (·.2)
        = some [("MTI", .str "1234"), ("PDS0001", .str "x"), ("DE48", .str "0001001x")]
      ∧ (_dict_to_iso8583 [("MTI", .str "1234"), ("PDS0001", .str "x")] bit_config).map (·.2)
        ≠ some [("MTI", .str "1234"), ("PDS0001", .str "x")] := by
  constructor <;> decide

/-! ## Lemmas: PDS fragmentation (C8) -/

/-- Whether a value is a Python `str`. -/
def PyVal.isStr : PyVal → Bool
  | .str _ => true
  | _ => false

/-- Decimal value of a digit-character string (the fold inside `pyInt?`). -/
def natOfDigits (ds : List Char) : Nat := ds.foldl (fun n c => 10 * n + (c.toNat - 48)) 0

/-- The numeric tag of a PDS dictionary entry (`int(key[3:])`). -/
def pdsTag (kv : String × PyVal) : Nat := natOfDigits (kv.1.data.drop 3)

/-- The string value of a PDS dictionary entry. -/
def pdsVal (kv : String × PyVal) : String :=
  match kv.2 with
  | .str s => s
  | _ => ""

/-- The `<tag:04d><len:03d><value>` composition of one PDS entry. -/
def pdsEntry (kv : String × PyVal) : String :=
  padZeros 4 (toString (pdsTag kv)) ++ padZeros 3 (toString (pdsVal kv).length) ++ pdsVal kv

/-- Concatenation of a list of strings. -/
def joinStr (l : List String) : String := ⟨(l.map String.data).flatten⟩

/-- A canonical PDS dictionary entry: key `PDS` followed by exactly four
decimal digits, value a string. -/
def CanonPDS (kv : String × PyVal) : Prop :=
  kv.1.data.take 3 = ['P', 'D', 'S'] ∧ (kv.1.data.drop 3).length = 4
    ∧ (∀ c ∈ kv.1.data.drop 3, c.isDigit) ∧ kv.2.isStr

instance (kv : String × PyVal) : Decidable (CanonPDS kv) := by
  unfold CanonPDS
  infer_instance

theorem strData_append (a b : String) : (a ++ b).data = a.data ++ b.data := rfl

theorem strLength_data (s : String) : s.length = s.data.length := rfl

theorem padZeros_length (w : Nat) (s : String) : (padZeros w s).length = max w s.length := by
  rw [padZeros]
  split
  · rw [strLength_data, strData_append]
    simp only [List.length_append, List.length_replicate]
    rw [strLength_data] at *
    omega
  · rw [strLength_data] at *
    omega

theorem toString_nat_length (n e : Nat) (he : 0 < e) (h : n < 10 ^ e) :
    (toString n).length ≤ e :=
  Nat.repr_length n e he h

theorem char_lt_iff_toNat (a b : Char) : a < b ↔ a.toNat < b.toNat := by
  rw [Char.lt_iff_val_lt_val]
  exact gt_iff_lt

theorem char_digit_bounds (c : Char) (h : c.isDigit = true) :
    48 ≤ c.toNat ∧ c.toNat ≤ 57 := by
  simp [Char.isDigit] at h
  exact h

theorem natOfDigits_foldl_aux (ds : List Char) :
    ∀ acc, ds.foldl (fun n c => 10 * n + (c.toNat - 48)) acc
      = acc * 10 ^ ds.length + natOfDigits ds := by
  induction ds with
  | nil => intro acc; simp [natOfDigits]
  | cons c cs ih =>
    intro acc
    rw [List.foldl_cons, ih (10 * acc + (c.toNat - 48))]
    have h2 : natOfDigits (c :: cs) = (c.toNat - 48) * 10 ^ cs.length + natOfDigits cs := by
      rw [show natOfDigits (c :: cs)
          = cs.foldl (fun n c => 10 * n + (c.toNat - 48)) (10 * 0 + (c.toNat - 48)) from rfl]
      rw [ih (10 * 0 + (c.toNat - 48)), show 10 * 0 + (c.toNat - 48) = c.toNat - 48 by omega]
    rw [h2]
    simp only [List.length_cons, pow_succ]
    ring

theorem natOfDigits_cons (c : Char) (cs : List Char) :
    natOfDigits (c :: cs) = (c.toNat - 48) * 10 ^ cs.length + natOfDigits cs := by
  rw [show natOfDigits (c :: cs)
      = cs.foldl (fun n c => 10 * n + (c.toNat - 48)) (10 * 0 + (c.toNat - 48)) from rfl]
  rw [natOfDigits_foldl_aux cs (10 * 0 + (c.toNat - 48)),
    show 10 * 0 + (c.toNat - 48) = c.toNat - 48 by omega]

theorem natOfDigits_lt_pow (ds : List Char) (h : ∀ c ∈ ds, c.isDigit) :
    natOfDigits ds < 10 ^ ds.length := by
  induction ds with
  | nil => simp [natOfDigits]
  | cons c cs ih =>
    have hc := char_digit_bounds c (h c (List.mem_cons_self c cs))
    have hcs := ih (fun x hx => h x (List.mem_cons_of_mem c hx))
    rw [natOfDigits_cons]
    simp only [List.length_cons, pow_succ]
    have hd : c.toNat - 48 ≤ 9 := by omega
    calc (c.toNat - 48) * 10 ^ cs.length + natOfDigits cs
        < (c.toNat - 48) * 10 ^ cs.length + 10 ^ cs.length := by omega
      _ = (c.toNat - 48 + 1) * 10 ^ cs.length := by ring
      _ ≤ 10 * 10 ^ cs.length := by
          exact Nat.mul_le_mul_right _ (by omega)
      _ = 10 ^ cs.length * 10 := by ring

theorem pyInt?_digits (ds : List Char) (hne : ds ≠ []) (h : ∀ c ∈ ds, c.isDigit) :
    pyInt? ⟨ds⟩ = some (natOfDigits ds) := by
  rw [pyInt?, if_pos]
  · rfl
  · exact ⟨hne, by simpa using h⟩

theorem strLt_append_same (p : List Char) (x y : List Char) :
    strLt (p ++ x) (p ++ y) = strLt x y := by
  induction p with
  | nil => rfl
  | cons c cs ih =>
    simp only [List.cons_append, strLt]
    rw [if_neg (lt_irrefl c), if_neg (lt_irrefl c)]
    exact ih

theorem strLt_digits_iff (ds : List Char) : ∀ es : List Char, ds.length = es.length →
    (∀ c ∈ ds, c.isDigit) → (∀ c ∈ es, c.isDigit) →
    (strLt ds es = true ↔ natOfDigits ds < natOfDigits es) := by
  induction ds with
  | nil =>
    intro es hlen _ _
    have : es = [] := List.length_eq_zero.mp (by simpa using hlen.symm)
    subst this
    simp [strLt, natOfDigits]
  | cons a as ih =>
    intro es hlen hd he
    cases es with
    | nil => simp at hlen
    | cons b bs =>
      have ha := char_digit_bounds a (hd a (List.mem_cons_self a as))
      have hb := char_digit_bounds b (he b (List.mem_cons_self b bs))
      have has : ∀ c ∈ as, c.isDigit := fun c hc => hd c (List.mem_cons_of_mem a hc)
      have hbs : ∀ c ∈ bs, c.isDigit := fun c hc => he c (List.mem_cons_of_mem b hc)
      have hlen2 : as.length = bs.length := by simpa using hlen
      have hva : natOfDigits as < 10 ^ as.length := natOfDigits_lt_pow as has
      have hvb : natOfDigits bs < 10 ^ bs.length := natOfDigits_lt_pow bs hbs
      rw [natOfDigits_cons, natOfDigits_cons, ← hlen2]
      simp only [strLt]
      by_cases hab : a < b
      · rw [if_pos hab]
        have : a.toNat - 48 < b.toNat - 48 := by
          have := (char_lt_iff_toNat a b).mp hab
          omega
        simp only [true_iff]
        calc (a.toNat - 48) * 10 ^ as.length + natOfDigits as
            < (a.toNat - 48) * 10 ^ as.length + 10 ^ as.length := by omega
          _ = (a.toNat - 48 + 1) * 10 ^ as.length := by ring
          _ ≤ (b.toNat - 48) * 10 ^ as.length := Nat.mul_le_mul_right _ (by omega)
          _ ≤ (b.toNat - 48) * 10 ^ as.length + natOfDigits bs := by omega
      · rw [if_neg hab]
        by_cases hba : b < a
        · rw [if_pos hba]
          have : b.toNat - 48 < a.toNat - 48 := by
            have := (char_lt_iff_toNat b a).mp hba
            omega
          rw [show ((false : Bool) = true ↔
            (a.toNat - 48) * 10 ^ as.length + natOfDigits as
              < (b.toNat - 48) * 10 ^ as.length + natOfDigits bs) ↔
            ¬ ((a.toNat - 48) * 10 ^ as.length + natOfDigits as
              < (b.toNat - 48) * 10 ^ as.length + natOfDigits bs) from by simp]
          simp only [not_lt]
          apply le_of_lt
          calc (b.toNat - 48) * 10 ^ as.length + natOfDigits bs
              < (b.toNat - 48) * 10 ^ as.length + 10 ^ as.length := by
                rw [hlen2]; omega
            _ = (b.toNat - 48 + 1) * 10 ^ as.length := by ring
            _ ≤ (a.toNat - 48) * 10 ^ as.length := Nat.mul_le_mul_right _ (by omega)
            _ ≤ (a.toNat - 48) * 10 ^ as.length + natOfDigits as := by omega
        · rw [if_neg hba]
          have heq : a = b := le_antisymm (not_lt.mp hba) (not_lt.mp hab)
          subst heq
          rw [ih bs hlen2 has hbs]
          omega

theorem map_fst_filter (message : Dict) (p : String → Bool) :
    (message.map (·.1)).filter p = (message.filter (fun kv => p kv.1)).map (·.1) := by
  induction message with
  | nil => rfl
  | cons kv rest ih =>
    by_cases h : p kv.1
    · simp [List.filter_cons, h, ih]
    · simp [List.filter_cons, h, ih]

theorem dictGet_of_mem_nodup (message : Dict) (k : String) (v : PyVal)
    (hmem : (k, v) ∈ message) (hnodup : (message.map (·.1)).Nodup) :
    dictGet message k = some v := by
  induction message with
  | nil => cases hmem
  | cons kv rest ih =>
    rcases List.mem_cons.mp hmem with h | h
    · subst h
      simp [dictGet, List.find?]
    · have hk : kv.1 ≠ k := by
        intro heq
        have : k ∈ rest.map (·.1) := List.mem_map.mpr ⟨(k, v), h, rfl⟩
        rw [List.map_cons, List.nodup_cons, heq] at hnodup
        exact hnodup.1 this
      have := ih h (by rw [List.map_cons, List.nodup_cons] at hnodup; exact hnodup.2)
      rw [dictGet, List.find?]
      rw [show (decide (kv.1 = k)) = false by simpa using hk]
      exact this

theorem sortStr_sorted (l : List String)
    (h : l.Pairwise (fun a b => strLt b.data a.data = false)) : sortStr l = l := by
  induction l with
  | nil => rfl
  | cons x xs ih =>
    rcases List.pairwise_cons.mp h with ⟨hx, hxs⟩
    rw [show sortStr (x :: xs) = insertLe x (sortStr xs) from rfl, ih hxs]
    cases xs with
    | nil => rfl
    | cons y ys =>
      rw [insertLe]
      rw [if_neg (by rw [hx y (List.mem_cons_self y ys)]; simp)]

theorem string_eq_of_data {a b : String} (h : a.data = b.data) : a = b := by
  cases a
  cases b
  exact congrArg String.mk h

theorem strLength_append (a b : String) : (a ++ b).length = a.length + b.length := by
  rw [strLength_data, strLength_data, strLength_data, strData_append, List.length_append]

theorem pdsChunks_spec : ∀ (adds : List String) (output : String) (outputs : List String),
    output.length ≤ 999 → (∀ f ∈ outputs, f.length ≤ 999) → (∀ a ∈ adds, a.length ≤ 999) →
    (∀ f ∈ pdsChunks adds output outputs, f.length ≤ 999) ∧
      (joinStr (pdsChunks adds output outputs)).data
        = (joinStr outputs).data ++ output.data ++ (joinStr adds).data := by
  intro adds
  induction adds with
  | nil =>
    intro output outputs hout houts _
    simp only [pdsChunks]
    split
    · constructor
      · intro f hf
        rcases List.mem_append.mp hf with h | h
        · exact houts f h
        · rw [List.mem_singleton.mp h]
          exact hout
      · simp [joinStr, List.map_append, List.flatten_append]
    · rename_i hne
      have h0 : output = "" := by simpa using hne
      subst h0
      constructor
      · exact houts
      · simp [joinStr]
  | cons a rest ih =>
    intro output outputs hout houts hadds
    have ha : a.length ≤ 999 := hadds a (List.mem_cons_self a rest)
    have hrest : ∀ x ∈ rest, x.length ≤ 999 :=
      fun x hx => hadds x (List.mem_cons_of_mem a hx)
    simp only [pdsChunks]
    split
    · have hspec := ih a (outputs ++ [output]) ha
        (by
          intro f hf
          rcases List.mem_append.mp hf with h | h
          · exact houts f h
          · rw [List.mem_singleton.mp h]
            exact hout)
        hrest
      refine ⟨hspec.1, ?_⟩
      rw [hspec.2]
      simp [joinStr, List.map_append, List.flatten_append, List.append_assoc]
    · rename_i hle
      have hlen2 : (output ++ a).length ≤ 999 := by omega
      have hspec := ih (output ++ a) outputs hlen2 houts hrest
      refine ⟨hspec.1, ?_⟩
      rw [hspec.2]
      simp [joinStr, strData_append, List.append_assoc]

theorem pds_entries_mapM (message : Dict) : ∀ (ps : List (String × PyVal)),
    (∀ kv ∈ ps, dictGet message kv.1 = some kv.2) →
    (∀ kv ∈ ps, CanonPDS kv) →
    (ps.map (·.1)).mapM (fun key => do
        let tag ← pyInt? (dropStr 3 key)
        let v ← dictGet message key
        let s ← match v with
          | PyVal.str s => some s
          | _ => none
        pure (padZeros 4 (toString tag) ++ padZeros 3 (toString s.length) ++ s))
      = some (ps.map pdsEntry) := by
  intro ps
  induction ps with
  | nil => intro _ _; rfl
  | cons kv rest ih =>
    intro hget hcanon
    obtain ⟨htake, hlen4, hdigits, hstr⟩ := hcanon kv (List.mem_cons_self kv rest)
    obtain ⟨v, hv⟩ : ∃ v, kv.2 = PyVal.str v := by
      rcases hkv : kv.2 with s | n | bs
      · exact ⟨s, rfl⟩
      · rw [hkv] at hstr; cases hstr
      · rw [hkv] at hstr; cases hstr
    have htag : pyInt? (dropStr 3 kv.1) = some (pdsTag kv) := by
      rw [show dropStr 3 kv.1 = ⟨kv.1.data.drop 3⟩ from rfl]
      exact pyInt?_digits _ (by intro h0; rw [h0] at hlen4; cases hlen4) hdigits
    have hv2 : dictGet message kv.1 = some kv.2 := hget kv (List.mem_cons_self kv rest)
    have hval : pdsVal kv = v := by rw [pdsVal, hv]
    simp only [List.map_cons, List.mapM_cons, htag, Option.some_bind, hv2, hv]
    rw [ih (fun x hx => hget x (List.mem_cons_of_mem kv hx))
      (fun x hx => hcanon x (List.mem_cons_of_mem kv hx))]
    rw [show pdsEntry kv
        = padZeros 4 (toString (pdsTag kv)) ++ padZeros 3 (toString v.length) ++ v by
      rw [pdsEntry, hval]]
    rfl

theorem popAssign_zip : ∀ (frags : List String) (slots : List Nat) (m : Dict),
    frags.length ≤ slots.length →
    popAssign m frags slots
      = some ((frags.zip slots.reverse).foldl
          (fun m p => dictSet m ("DE" ++ toString p.2) (.str p.1)) m) := by
  intro frags
  induction frags with
  | nil =>
    intro slots m _
    simp [popAssign]
  | cons f fs ih =>
    intro slots m hlen
    have hne : slots ≠ [] := by
      intro h
      subst h
      simp at hlen
    obtain ⟨last, hlast⟩ := Option.isSome_iff_exists.mp (List.getLast?_isSome.mpr hne)
    have hlast2 : last = slots.getLast hne := by
      have := List.getLast?_eq_getLast slots hne
      rw [this] at hlast
      exact (Option.some_inj.mp hlast).symm
    have hslots : slots.reverse = last :: slots.dropLast.reverse := by
      conv_lhs => rw [← List.dropLast_append_getLast hne]
      rw [List.reverse_append, ← hlast2]
      rfl
    simp only [popAssign, hlast]
    rw [ih slots.dropLast _ (by
      simp only [List.length_dropLast]
      simp only [List.length_cons] at hlen
      omega)]
    rw [hslots]
    rfl

theorem pdsSlotsDesc_eq : pdsSlotsDesc bit_config = [125, 124, 123, 62, 48] := by decide

/-- C8 (amended): for a dictionary whose PDS entries are canonical
(`PDS` + four digits, string values), listed with strictly ascending tags
(as any map can be), with no duplicate keys and every value of at most 992
characters, `_pds_to_de` composes `<tag:04d><len:03d><value>` per entry in
that ascending order, packs them greedily into fragments of at most 999
characters whose concatenation is the concatenation of all entries, and the
encoder pops the descending PDS slot list so successive fragments land on
the PDS-typed slots 48, 62, 123, 124, 125 in ascending bit order.  (The
claim's 999-character value bound is too weak: a value of 993–999 characters
forms an entry longer than 999 characters which becomes an oversize
fragment, so the bound must be 992.) -/
theorem claim_C8 (message : Dict)
    (hnodup : (message.map (·.1)).Nodup)
    (hcanon : ∀ kv ∈ message.filter (fun kv => startsPDS kv.1), CanonPDS kv)
    (hasc : ((message.filter (fun kv => startsPDS kv.1)).map pdsTag).Pairwise (· < ·))
    (hval : ∀ kv ∈ message.filter (fun kv => startsPDS kv.1), (pdsVal kv).length ≤ 992) :
    ∃ frags, _pds_to_de message = some frags
      ∧ (∀ f ∈ frags, f.length ≤ 999)
      ∧ joinStr frags = joinStr ((message.filter (fun kv => startsPDS kv.1)).map pdsEntry)
      ∧ (frags.length ≤ 5 →
          popAssign message frags (pdsSlotsDesc bit_config)
            = some ((frags.zip [48, 62, 123, 124, 125]).foldl
                (fun m p => dictSet m ("DE" ++ toString p.2) (.str p.1)) message)) := by
  set parts := message.filter (fun kv => startsPDS kv.1) with hparts
  have hkeys : (message.map (·.1)).filter (fun k => startsPDS k) = parts.map (·.1) :=
    map_fst_filter message _
  have hcanon2 : ∀ kv ∈ parts, CanonPDS kv := hcanon
  have hsorted : (parts.map (·.1)).Pairwise (fun a b => strLt b.data a.data = false) := by
    have hasc2 : parts.Pairwise (fun x y => pdsTag x < pdsTag y) :=
      (List.pairwise_map).mp hasc
    have hasc3 : parts.Pairwise (fun x y => x ∈ parts ∧ y ∈ parts ∧ pdsTag x < pdsTag y) :=
      List.Pairwise.and_mem.mp hasc2
    rw [List.pairwise_map]
    refine hasc3.imp ?_
    rintro x y ⟨hx, hy, hlt⟩
    obtain ⟨hxt, hxl, hxd, _⟩ := hcanon2 x hx
    obtain ⟨hyt, hyl, hyd, _⟩ := hcanon2 y hy
    have hxdata : x.1.data = ['P', 'D', 'S'] ++ x.1.data.drop 3 := by
      conv_lhs => rw [← List.take_append_drop 3 x.1.data]
      rw [hxt]
    have hydata : y.1.data = ['P', 'D', 'S'] ++ y.1.data.drop 3 := by
      conv_lhs => rw [← List.take_append_drop 3 y.1.data]
      rw [hyt]
    rw [hxdata, hydata, strLt_append_same]
    have hiff := strLt_digits_iff (y.1.data.drop 3) (x.1.data.drop 3)
      (by omega) hyd hxd
    rw [Bool.eq_false_iff]
    intro hcon
    have := hiff.mp hcon
    rw [show natOfDigits (y.1.data.drop 3) = pdsTag y from rfl,
      show natOfDigits (x.1.data.drop 3) = pdsTag x from rfl] at this
    omega
  have hget : ∀ kv ∈ parts, dictGet message kv.1 = some kv.2 := by
    intro kv hkv
    exact dictGet_of_mem_nodup message kv.1 kv.2 (List.mem_of_mem_filter hkv) hnodup
  have hentlen : ∀ e ∈ parts.map pdsEntry, e.length ≤ 999 := by
    intro e he
    obtain ⟨kv, hkv, rfl⟩ := List.mem_map.mp he
    obtain ⟨_, hl4, hdig, _⟩ := hcanon2 kv hkv
    have htag : pdsTag kv < 10 ^ 4 := by
      have := natOfDigits_lt_pow (kv.1.data.drop 3) hdig
      rw [hl4] at this
      exact this
    have ht4 : (toString (pdsTag kv)).length ≤ 4 :=
      toString_nat_length _ 4 (by norm_num) htag
    have hv3 : (toString (pdsVal kv).length).length ≤ 3 :=
      toString_nat_length _ 3 (by norm_num) (by have := hval kv hkv; omega)
    rw [pdsEntry, strLength_append, strLength_append, padZeros_length, padZeros_length]
    have := hval kv hkv
    omega
  rw [_pds_to_de, hkeys, sortStr_sorted _ hsorted, pds_entries_mapM message parts hget hcanon2]
  refine ⟨pdsChunks (parts.map pdsEntry) "" [], rfl, ?_, ?_, ?_⟩
  · exact (pdsChunks_spec (parts.map pdsEntry) "" [] (by simp [strLength_data])
      (by intro f hf; cases hf) hentlen).1
  · apply string_eq_of_data
    rw [(pdsChunks_spec (parts.map pdsEntry) "" [] (by simp [strLength_data])
      (by intro f hf; cases hf) hentlen).2]
    simp [joinStr]
  · intro hlen5
    rw [pdsSlotsDesc_eq,
      popAssign_zip _ [125, 124, 123, 62, 48] message (by simpa using hlen5)]
    rfl

/-- Witness for `claim_C8`: the dictionary `{PDS0001: "ab", PDS9999: "c"}` has
canonical, ascending, short PDS entries, so the encoder produces bounded
fragments whose concatenation is `0001002ab9999001c`, assigned to DE 48 first. -/
theorem claim_C8_witness :
    ∃ frags, _pds_to_de [("PDS0001", PyVal.str "ab"), ("PDS9999", PyVal.str "c")] = some frags
      ∧ (∀ f ∈ frags, f.length ≤ 999)
      ∧ joinStr frags
          = joinStr ((([("PDS0001", PyVal.str "ab"), ("PDS9999", PyVal.str "c")] : Dict).filter
              (fun kv => startsPDS kv.1)).map pdsEntry)
      ∧ (frags.length ≤ 5 →
          popAssign [("PDS0001", PyVal.str "ab"), ("PDS9999", PyVal.str "c")] frags
              (pdsSlotsDesc bit_config)
            = some ((frags.zip [48, 62, 123, 124, 125]).foldl
                (fun m p => dictSet m ("DE" ++ toString p.2) (.str p.1))
                [("PDS0001", PyVal.str "ab"), ("PDS9999", PyVal.str "c")])) :=
  claim_C8 [("PDS0001", PyVal.str "ab"), ("PDS9999", PyVal.str "c")]
    (by decide) (by decide) (by decide) (by decide)

set_option maxRecDepth 100000 in
/-- C8 counterexample to the literal claim: a single PDS value of 999
characters (within the claim's stated bound) yields the entry
`0001999` + 999 characters, 1006 characters long; the greedy packer first
flushes the empty accumulator as an empty fragment and then emits the entry
as a fragment of 1006 characters, exceeding 999. -/
theorem claim_C8_counterexample :
    ∃ frags,
      _pds_to_de [("PDS0001", PyVal.str (String.mk (List.replicate 999 'x')))] = some frags
        ∧ ¬(∀ f ∈ frags, f.length ≤ 999) := by
  refine ⟨["", String.mk ('0' :: '0' :: '0' :: '1' :: '9' :: '9' :: '9' ::
      List.replicate 999 'x')], ?_, ?_⟩
  · decide
  · decide

/-- C3 (amended): for every 16-byte bitmap `b`, `tolist b` has length exactly
128, and `fromlist (tolist b)` equals `b` with its leading zero bytes
stripped; the round trip is the identity exactly when the first byte of `b`
is non-zero.  (The claim's unconditional round trip fails: the
`bitstring_to_bytes` loop stops at value zero and so never emits leading
zero bytes.) -/
theorem claim_C3 (b : List Nat) (hlen : b.length = 16) (hb : ∀ x ∈ b, x < 256) :
    (tolist b).length = 128 ∧ fromlist (tolist b) = b.dropWhile (· == 0)
      ∧ (fromlist (tolist b) = b ↔ b.head? ≠ some 0) := by
  refine ⟨?_, fromlist_tolist b hb, ?_⟩
  · rw [tolist, natToTopBits_length, hlen]
  · rw [fromlist_tolist b hb]
    match b, hlen with
    | x :: t, _ =>
      by_cases hx : x = 0
      · subst hx
        constructor
        · intro h
          exfalso
          have hle : (List.dropWhile (· == 0) t).length ≤ t.length :=
            (List.dropWhile_suffix (· == 0)).length_le
          rw [List.dropWhile_cons] at h
          simp only [show ((0 : Nat) == 0) = true from rfl, if_true] at h
          have := congrArg List.length h
          simp only [List.length_cons] at this
          omega
        · intro h
          simp at h
      · have hxb : (x == 0) = false := by simpa using hx
        rw [List.dropWhile_cons, hxb]
        simp [hx]

set_option maxRecDepth 4000 in
/-- C3 witness: the amended round trip at the bitmap `80 00 ... 00`. -/
theorem claim_C3_witness :
    (0x80 :: List.replicate 15 0).length = 16 ∧ (∀ x ∈ 0x80 :: List.replicate 15 0, x < 256) ∧
      ((tolist (0x80 :: List.replicate 15 0)).length = 128 ∧
        fromlist (tolist (0x80 :: List.replicate 15 0))
          = (0x80 :: List.replicate 15 0).dropWhile (· == 0) ∧
        (fromlist (tolist (0x80 :: List.replicate 15 0)) = 0x80 :: List.replicate 15 0 ↔
          (0x80 :: List.replicate 15 0).head? ≠ some 0)) :=
  ⟨by decide, by decide, claim_C3 (0x80 :: List.replicate 15 0) (by decide) (by decide)⟩

set_option maxRecDepth 4000 in
/-- C3 counterexample: on the all-zero 16-byte bitmap the round trip returns
the empty byte string, not the bitmap. -/
theorem claim_C3_counterexample :
    fromlist (tolist (List.replicate 16 0)) = [] ∧
      fromlist (tolist (List.replicate 16 0)) ≠ List.replicate 16 0 := by
  constructor <;> decide

end Cardutil
